import Mathlib

/-!
Verification of the Nagare stream-processing engine (TypeScript sources under
`src/src/`) against its natural-language specification.

The pure synchronous fragment of the pipeline is shallowly embedded:

* `Op`        — the tagged operator metadata (`kind ∈ map/filter/scan/take/skip`)
  attached by `Nagare.map/filter/scan/take/skip` (src/src/nagare.ts, lines 239-336).
* `OpI`       — an *instantiated* operator: the operator together with its mutable
  closure state (scan accumulator, take/skip cursor), mirroring the closures
  produced by the methods above and the fresh state variables emitted by the
  JIT compiler (src/src/internal/compile.ts).
* `applyChain`/`runFused` — the fused per-item function: semantics shared by the
  closure-composed fallback of `compileOperatorChainUnchecked`
  (compile.ts lines 173-180) and its JIT-generated per-item function
  (compile.ts lines 119-169), threading the per-operator state.
* `transduce`/`runLevels` — the generic per-level async iteration: each Nagare
  node holds exactly one operator and `applyOperators` is applied per item at
  each level (nagare.ts lines 112-141 together with the nested-source branch of
  `Symbol.asyncIterator`, lines 634-706).
* `runKernel` — the compiled scalar array kernel `compileArrayKernelUnchecked`
  (compile.ts lines 183-245): a `take` whose cursor is exhausted executes
  `break`, terminating the whole loop.
* `runBlocksS`/`runUnrolledFrom` — the 4-lane unrolled kernel
  `compileArrayKernelUncheckedUnrolled` (compile.ts lines 247-358): the main
  loop processes blocks of 4 lanes stage-by-stage with kill flags, and the
  scalar tail loop uses *fresh* state variables (`tsk`/`ta` prologue names,
  distinct from the main loop's `sk`/`a` names).
* `toArrayModel` — the execution dispatch of `Nagare.toArray`
  (nagare.ts lines 708-830); `Nagare[Symbol.asyncIterator]` (lines 540-706)
  dispatches identically.

Values are kept at a single type `α` (the TypeScript pipeline is untyped at
runtime); a `map` function may return `none`, modelling a callback that
returns `undefined` (the semantic "no value"), while `filter` carries its
boolean predicate and `scan` its total binary function, exactly as the tagged
metadata does.
-/

set_option autoImplicit false

namespace Nagare

variable {α : Type} {ε : Type}


/-- Tagged operator metadata, as attached via the `__nagareOp` symbol property in
`Nagare.map/filter/scan/take/skip` (src/src/nagare.ts lines 239-336). -/
inductive Op (α : Type) where
  | map (f : α → Option α)
  | filter (p : α → Bool)
  | scan (f : α → α → α) (seed : α)
  | take (n : Nat)
  | skip (n : Nat)

/-- An instantiated operator: the operator plus its per-instantiation closure
state.  `scan` carries the current accumulator (`let accumulator = initial`,
nagare.ts line 276), `take` the `taken` cursor (line 302) and `skip` the
`skipped` cursor (line 320). -/
inductive OpI (α : Type) where
  | map (f : α → Option α)
  | filter (p : α → Bool)
  | scan (f : α → α → α) (acc : α)
  | take (n : Nat) (cnt : Nat)
  | skip (n : Nat) (cnt : Nat)

/-- Fresh instantiation of an operator: cursors start at 0, the scan accumulator
at its seed. -/
def Op.init : Op α → OpI α
  | .map f => .map f
  | .filter p => .filter p
  | .scan f seed => .scan f seed
  | .take n => .take n 0
  | .skip n => .skip n 0

/-- One application of a single operator closure to one value, returning the
updated closure state and the produced value (`none` models `undefined`):

* `map f`: `c = f(c)` (undefined short-circuits);
* `filter p`: keep the value iff the predicate holds (nagare.ts lines 255-261);
* `scan f acc`: update the accumulator and emit it (nagare.ts lines 277-288);
* `take n cnt`: if `taken >= count` return undefined, else increment and pass
  (nagare.ts lines 303-307);
* `skip n cnt`: if `skipped < count` increment and return undefined, else pass
  (nagare.ts lines 321-327). -/
def OpI.step : OpI α → α → OpI α × Option α
  | .map f, v => (.map f, f v)
  | .filter p, v => (.filter p, if p v then some v else none)
  | .scan f acc, v => (.scan f (f acc v), some (f acc v))
  | .take n cnt, v => if n ≤ cnt then (.take n cnt, none) else (.take n (cnt + 1), some v)
  | .skip n cnt, v => if cnt < n then (.skip n (cnt + 1), none) else (.skip n cnt, some v)

/-- Fused per-item evaluation of a whole chain on one value: walk the operators
in order, short-circuiting on `undefined` from any stage, and return the updated
chain states together with the final value.  This is the body shared by the
closure fallback of `compileOperatorChainUnchecked` (compile.ts lines 173-180)
and the JIT-emitted per-item function (lines 125-166). -/
def applyChain : List (OpI α) → α → List (OpI α) × Option α
  | [], v => ([], some v)
  | op :: ops, v =>
    match op.step v with
    | (op', none) => (op' :: ops, none)
    | (op', some v') =>
      match applyChain ops v' with
      | (ops', r) => (op' :: ops', r)

/-- Run the fused per-item function over a list of inputs, threading the chain
state, returning the final states and the emitted outputs (the
`for` loop around `fast(src[i])` in `toArray`, nagare.ts lines 783-787). -/
def runFusedS : List (OpI α) → List α → List (OpI α) × List α
  | ops, [] => (ops, [])
  | ops, x :: xs =>
    match applyChain ops x with
    | (ops', none) => runFusedS ops' xs
    | (ops', some v) =>
      match runFusedS ops' xs with
      | (opsF, out) => (opsF, v :: out)

/-- Outputs of the fused per-item execution. -/
def runFused (ops : List (OpI α)) (xs : List α) : List α :=
  (runFusedS ops xs).2

/-- Per-level evaluation of a single operator over a stream of values, threading
its state: the semantics of one Nagare node's `applyOperators` loop
(nagare.ts lines 112-141) during generic iteration. -/
def transduceS : OpI α → List α → OpI α × List α
  | op, [] => (op, [])
  | op, x :: xs =>
    match op.step x with
    | (op', none) => transduceS op' xs
    | (op', some v) =>
      match transduceS op' xs with
      | (opF, out) => (opF, v :: out)

/-- Outputs of per-level evaluation of one operator. -/
def transduce (op : OpI α) (xs : List α) : List α :=
  (transduceS op xs).2

/-- Generic per-level iteration of a whole chain: every operator method creates
a child Nagare node holding exactly that one operator, so with fusion disabled
the nested-source branch of `Symbol.asyncIterator` (nagare.ts lines 634-706)
evaluates the chain level by level, innermost first. -/
def runLevels (ops : List (Op α)) (xs : List α) : List α :=
  ops.foldl (fun acc op => transduce op.init acc) xs

/-- Chain contains a `scan` operator. -/
def hasScanOp : List (Op α) → Bool
  | [] => false
  | .scan _ _ :: _ => true
  | _ :: ops => hasScanOp ops

/-- Chain contains a `take` operator. -/
def hasTakeOp : List (Op α) → Bool
  | [] => false
  | .take _ :: _ => true
  | _ :: ops => hasTakeOp ops

/-- Chain contains a `skip` operator. -/
def hasSkipOp : List (Op α) → Bool
  | [] => false
  | .skip _ :: _ => true
  | _ :: ops => hasSkipOp ops

/-- Chain contains a stateful operator (`scan`, `take` or `skip`):
`Nagare.hasStatefulOps` (nagare.ts lines 221-228). -/
def hasStatefulOps : List (Op α) → Bool
  | [] => false
  | .scan _ _ :: _ => true
  | .take _ :: _ => true
  | .skip _ :: _ => true
  | _ :: ops => hasStatefulOps ops

/-- Result of evaluating one source item inside the compiled scalar array
kernel: emit a value, `continue` to the next item, or `break` out of the whole
loop (the `take` branch, compile.ts line 218). -/
inductive KStep (α : Type) where
  | emit (v : α)
  | drop
  | halt

/-- One iteration of the scalar array-kernel body
(`compileArrayKernelUnchecked`, compile.ts lines 193-236): `filter` misses and
`skip` quota execute `continue`, an exhausted `take` executes `break`, `map`
returning `undefined` executes `continue`, `scan` updates its accumulator with
no `undefined` check. -/
def applyChainK : List (OpI α) → α → List (OpI α) × KStep α
  | [], v => ([], .emit v)
  | .map f :: ops, v =>
    match f v with
    | none => (.map f :: ops, .drop)
    | some v' =>
      match applyChainK ops v' with
      | (ops', r) => (.map f :: ops', r)
  | .filter p :: ops, v =>
    if p v then
      match applyChainK ops v with
      | (ops', r) => (.filter p :: ops', r)
    else (.filter p :: ops, .drop)
  | .scan f acc :: ops, v =>
    match applyChainK ops (f acc v) with
    | (ops', r) => (.scan f (f acc v) :: ops', r)
  | .take n cnt :: ops, v =>
    if n ≤ cnt then (.take n cnt :: ops, .halt)
    else
      match applyChainK ops v with
      | (ops', r) => (.take n (cnt + 1) :: ops', r)
  | .skip n cnt :: ops, v =>
    if cnt < n then (.skip n (cnt + 1) :: ops, .drop)
    else
      match applyChainK ops v with
      | (ops', r) => (.skip n cnt :: ops', r)

/-- The scalar array kernel loop: final states, outputs, and the number of
source slots `src[i]` read before the loop ended (`break` stops polling). -/
def runKernelS : List (OpI α) → List α → List (OpI α) × List α × Nat
  | ops, [] => (ops, [], 0)
  | ops, x :: xs =>
    match applyChainK ops x with
    | (ops', .halt) => (ops', [], 1)
    | (ops', .drop) =>
      match runKernelS ops' xs with
      | (opsF, out, polls) => (opsF, out, polls + 1)
    | (ops', .emit v) =>
      match runKernelS ops' xs with
      | (opsF, out, polls) => (opsF, v :: out, polls + 1)

/-- Outputs of the scalar array kernel. -/
def runKernel (ops : List (OpI α)) (xs : List α) : List α :=
  (runKernelS ops xs).2.1

/-- Number of source slots the scalar array kernel reads. -/
def kernelPolls (ops : List (OpI α)) (xs : List α) : Nat :=
  (runKernelS ops xs).2.2

/-- An instantiated `take` whose cursor has reached its bound. -/
def OpI.exhausted : OpI α → Bool
  | .take n cnt => n ≤ cnt
  | _ => false

/-- Chain contains an exhausted `take`. -/
def hasExhausted : List (OpI α) → Bool
  | [] => false
  | op :: ops => op.exhausted || hasExhausted ops

/-- One lane of the unrolled kernel at one operator stage: a killed lane
(`s_lane = true`, modelled as `none`) is skipped, a live lane steps the
operator and may become killed (compile.ts lines 276-308). -/
def stepLane (op : OpI α) : Option α → OpI α × Option α
  | none => (op, none)
  | some v => op.step v

/-- One operator stage applied across a block of lanes in lane order
(the generated per-stage lane statements of the unrolled kernel). -/
def blockStage : OpI α → List (Option α) → OpI α × List (Option α)
  | op, [] => (op, [])
  | op, l :: ls =>
    match stepLane op l with
    | (op1, l1) =>
      match blockStage op1 ls with
      | (opF, ls1) => (opF, l1 :: ls1)

/-- All operator stages applied across a block of lanes, stage-major: stage 0
over all lanes, then stage 1 over all lanes, and so on — exactly the statement
order emitted by `compileArrayKernelUncheckedUnrolled` for one unrolled block
(compile.ts lines 273-309). -/
def blockChain : List (OpI α) → List (Option α) → List (OpI α) × List (Option α)
  | [], ls => ([], ls)
  | op :: ops, ls =>
    match blockStage op ls with
    | (op1, ls1) =>
      match blockChain ops ls1 with
      | (opsF, ls2) => (op1 :: opsF, ls2)

/-- The main loop of the unrolled kernel: process blocks of four lanes
stage-major, threading the shared state variables across blocks, and stop when
fewer than four items remain (those are the scalar tail's input).  Returns the
final states, the emitted outputs (surviving lanes in lane order,
compile.ts lines 310-312), and the leftover items. -/
def runBlocksS : List (OpI α) → List α → List (OpI α) × List α × List α
  | ops, a :: b :: c :: d :: rest =>
    match blockChain ops [some a, some b, some c, some d] with
    | (ops1, lanes) =>
      match runBlocksS ops1 rest with
      | (opsF, out, leftover) => (opsF, lanes.reduceOption ++ out, leftover)
  | ops, rest => (ops, [], rest)

/-- The full unrolled kernel `compileArrayKernelUncheckedUnrolled`
(compile.ts lines 247-358) run from its start index: the 4-lane main loop
followed by the scalar tail loop.  The tail loop's generated state variables
(`tsk…`/`ta…` in the prologue, lines 330 and 338) are fresh, distinct from the
main loop's (`sk…`/`a…`), so the tail runs with freshly initialised operator
state. -/
def runUnrolledFrom (ops : List (Op α)) (ys : List α) : List α :=
  match runBlocksS (ops.map Op.init) ys with
  | (_, out, leftover) => out ++ runFused (ops.map Op.init) leftover

/-- Evaluating a whole chain on one lane (identity on killed lanes). -/
def chainLane (ops : List (OpI α)) : Option α → List (OpI α) × Option α
  | none => (ops, none)
  | some v => applyChain ops v

/-- Kernel selection inside `toArray`'s no-error-handler branch
(nagare.ts lines 765-787): with `jit_mode = 'fast'` and a source of length at
least 200 000, try the 4-lane unrolled kernel (which refuses chains containing
`take`, compile.ts lines 254-258); otherwise the scalar kernel; with
`jit_mode = 'off'` both kernel compilations throw `jit-disabled` and the
per-item loop over the closure-composed function runs instead.  A chain
containing `scan` also falls back to the per-item closure loop: the generated
prologue `let aN = aN;` redeclares the function parameter `aN`, which is a
JavaScript `SyntaxError`, so `new Function` throws and both kernel compilers
return `null` (compile.ts lines 140, 209, 288 inside their `try` blocks). -/
def kernelPath (jitFast : Bool) (fullLen : Nat) (ops : List (Op α)) (ys : List α) : List α :=
  if jitFast = true ∧ hasScanOp ops = false then
    if 200000 ≤ fullLen ∧ hasTakeOp ops = false then runUnrolledFrom ops ys
    else runKernel (ops.map Op.init) ys
  else runFused (ops.map Op.init) ys

/-- Number of source slots read by the kernel selection of `kernelPath`: the
per-item loops and the unrolled kernel traverse the whole remaining source,
while the scalar kernel stops at a `take`-induced `break`. -/
def kernelPathPolls (jitFast : Bool) (fullLen : Nat) (ops : List (Op α)) (ys : List α) : Nat :=
  if jitFast = true ∧ hasScanOp ops = false then
    if 200000 ≤ fullLen ∧ hasTakeOp ops = false then ys.length
    else kernelPolls (ops.map Op.init) ys
  else ys.length

/-- Execution dispatch of `Nagare.toArray` (nagare.ts lines 708-830) for an
array base source under Drop policy (no error handler, the claims' setting);
`Nagare[Symbol.asyncIterator]` (lines 540-706) dispatches identically.
With fusion disabled, or when the flattened chain is empty, the generic
per-level iteration runs (for an empty chain it returns a plain copy).  With
fusion enabled, a stateless chain first probes the single first item through
the guarded fused function (lines 733-764) and then runs the kernel path on
the remainder; a stateful chain skips the probe so cursors start at index 0
(lines 732-733 comment, line 561). -/
def toArrayModel (fusionEnabled jitFast : Bool) (ops : List (Op α)) (xs : List α) : List α :=
  if fusionEnabled = true ∧ ops.isEmpty = false then
    if hasStatefulOps ops = false then
      match xs with
      | [] => []
      | x :: rest =>
        (applyChain (ops.map Op.init) x).2.toList
          ++ kernelPath jitFast (x :: rest).length ops rest
    else kernelPath jitFast xs.length ops xs
  else runLevels ops xs

/-- Number of source slots `toArray` reads under each configuration. -/
def toArrayPolls (fusionEnabled jitFast : Bool) (ops : List (Op α)) (xs : List α) : Nat :=
  if fusionEnabled = true ∧ ops.isEmpty = false then
    if hasStatefulOps ops = false then
      match xs with
      | [] => 0
      | x :: rest => 1 + kernelPathPolls jitFast (x :: rest).length ops rest
    else kernelPathPolls jitFast xs.length ops xs
  else xs.length

/-- The guarded per-item function produced by `compileOperatorChain` when an
error handler is installed (compile.ts lines 19-38): walk the operator
closures, short-circuiting on `undefined`; if any stage throws, call the
handler and return whatever it returns (the recovered value is NOT passed
through the remaining operators).  A closure may throw (`Except.error`) or
return `undefined` (`Option.none`). -/
def guardedApply (h : ε → Option α) : List (α → Except ε (Option α)) → α → Option α
  | [], v => some v
  | g :: gs, v =>
    match g v with
    | .error e => h e
    | .ok none => none
    | .ok (some v') => guardedApply h gs v'

/-- The guarded fused function applied to every source item with defined
results collected (`toArray`'s handler branch, nagare.ts lines 788-811). -/
def guardedRun (h : ε → Option α) (gs : List (α → Except ε (Option α)))
    (xs : List α) : List α :=
  xs.filterMap (guardedApply h gs)

/-- The operator closure created by `Nagare.map` for a callback that may
throw: a defined result is passed on, an exception propagates. -/
def mapThrows (f : α → Except ε α) : α → Except ε (Option α) :=
  fun v => (f v).map some

/-- Model of `Nagare.first` (nagare.ts lines 833-838): the head of the
iteration's output sequence (the async iterator dispatches exactly like
`toArray`). -/
def firstModel (fusionEnabled jitFast : Bool) (ops : List (Op α)) (xs : List α) : Option α :=
  (toArrayModel fusionEnabled jitFast ops xs).head?

/-- Model of `Nagare.last` (nagare.ts lines 840-846). -/
def lastModel (fusionEnabled jitFast : Bool) (ops : List (Op α)) (xs : List α) : Option α :=
  (toArrayModel fusionEnabled jitFast ops xs).getLast?

/-- Model of `Nagare.count` (nagare.ts lines 848-854). -/
def countModel (fusionEnabled jitFast : Bool) (ops : List (Op α)) (xs : List α) : Nat :=
  (toArrayModel fusionEnabled jitFast ops xs).length

/-- Model of `Nagare.all` (nagare.ts lines 856-863). -/
def allModel (fusionEnabled jitFast : Bool) (ops : List (Op α)) (p : α → Bool)
    (xs : List α) : Bool :=
  (toArrayModel fusionEnabled jitFast ops xs).all p

/-- Model of `Nagare.some` (nagare.ts lines 865-872). -/
def someModel (fusionEnabled jitFast : Bool) (ops : List (Op α)) (p : α → Bool)
    (xs : List α) : Bool :=
  (toArrayModel fusionEnabled jitFast ops xs).any p

/-- Number of operator stages the fused per-item function executes on one item
(stages after an `undefined` short-circuit are not executed). -/
def applyChainCalls : List (OpI α) → α → Nat
  | [], _ => 0
  | op :: ops, v =>
    match op.step v with
    | (_, none) => 1
    | (_, some v') => 1 + applyChainCalls ops v'

/-- Number of operator stages executed over a whole run. -/
def runFusedCalls : List (OpI α) → List α → Nat
  | _, [] => 0
  | ops, x :: xs =>
    match applyChain ops x with
    | (ops', _) => applyChainCalls ops x + runFusedCalls ops' xs

/-- The operator states left behind by one full run: the closure variables
(scan accumulator, take/skip cursors) captured when the operator methods were
called (nagare.ts lines 276, 302, 320) live on the tagged operator functions,
so a second iteration of the same stream reuses them wherever the
closure-composed path runs. -/
def statesAfter (ops : List (Op α)) (xs : List α) : List (OpI α) :=
  (runFusedS (ops.map Op.init) xs).1

/-- Loop body of `distinctUntilChanged` (src/src/operators.ts lines 176-190).
The source guard is `previous === Symbol('initial') || value !== previous`,
where `Symbol('initial')` is freshly allocated at every comparison, so the
first disjunct is always false; `previous` is initialised to a (different)
unique symbol, which no stream value is reference-equal to, so while
`previous` is the sentinel (modelled `none`) the item is always emitted. -/
def distinctUntilChangedGo [DecidableEq α] : Option α → List α → List α
  | _, [] => []
  | none, x :: xs => x :: distinctUntilChangedGo (some x) xs
  | some p, x :: xs =>
    if x ≠ p then x :: distinctUntilChangedGo (some x) xs
    else distinctUntilChangedGo (some p) xs

/-- Model of the `distinctUntilChanged` operator. -/
def distinctUntilChangedModel [DecidableEq α] (xs : List α) : List α :=
  distinctUntilChangedGo none xs

/-- Model of `startWith` (src/src/operators.ts lines 210-220): yield the given
values, then delegate to the upstream. -/
def startWithModel (vals xs : List α) : List α :=
  vals ++ xs

/-- Polling loop of `nagare.combine` (src/src/index.ts lines 59-86),
specialised to two sources.  Each round awaits `next()` on every iterator; a
source that is done leaves its `values[i]` and `hasValues[i]` untouched; the
loop breaks only when ALL sources are done, and otherwise emits the tuple of
current values whenever every source has produced at least one value.
`va`/`vb` are the retained latest values (`none` = `hasValues[i]` still
false).  Once one source is done its retained value never changes again, so
the remaining rounds pair each surviving item of the other source with that
value — and emit nothing at all if the done source never produced a value;
these constant tails are written in closed form. -/
def combineLoop {β : Type} : List α → List β → Option α → Option β → List (α × β)
  | [], [], _, _ => []
  | x :: xs, y :: ys, _, _ => (x, y) :: combineLoop xs ys (some x) (some y)
  | x :: xs, [], _, vb =>
    match vb with
    | some b => (x :: xs).map fun a2 => (a2, b)
    | none => []
  | [], y :: ys, va, _ =>
    match va with
    | some a => (y :: ys).map fun b2 => (a, b2)
    | none => []

/-- Model of `nagare.combine` for two sources: both `hasValues` flags start
false. -/
def combineModel {β : Type} (xs : List α) (ys : List β) : List (α × β) :=
  combineLoop xs ys none none

/-- Extension of a list to length `n` by repeating its last element (`a` when
the list is empty): what a completed source contributes to later `combine`
rounds. -/
def padWith {γ : Type} (a : γ) (n : Nat) (l : List γ) : List γ :=
  l ++ List.replicate (n - l.length) (l.getLastD a)

/-- JavaScript's `Number.MAX_SAFE_INTEGER`, the saturation cap of
`addCredits` (src/src/backpressure.ts line 41). -/
def MAX_SAFE_INTEGER : Int := 2 ^ 53 - 1

/-- A call against a `CreditController` (the pure JS fallback path; the
optional WASM controller is an external kernel outside the core). -/
inductive CreditOp where
  | consume (amount : Nat)
  | add (amount : Nat)

/-- `CreditController.consumeCredit` (backpressure.ts lines 25-35): if enough
credits are available, decrement and return true; otherwise leave the state
unchanged and return false. -/
def consumeCredit (credits : Int) (amount : Nat) : Int × Bool :=
  if (amount : Int) ≤ credits then (credits - amount, true) else (credits, false)

/-- `CreditController.addCredits` (backpressure.ts lines 37-43):
`credits = Math.min(credits + amount, Number.MAX_SAFE_INTEGER)`. -/
def addCredits (credits : Int) (amount : Nat) : Int :=
  min (credits + amount) MAX_SAFE_INTEGER

/-- Run a call sequence from a credit balance, returning the final balance
(`availableCredits()`), the total amount granted, and the total amount
successfully consumed. -/
def runCredits : Int → List CreditOp → Int × Int × Int
  | credits, [] => (credits, 0, 0)
  | credits, .add n :: ops =>
    match runCredits (addCredits credits n) ops with
    | (c, g, u) => (c, g + n, u)
  | credits, .consume n :: ops =>
    match consumeCredit credits n with
    | (c1, ok) =>
      match runCredits c1 ops with
      | (c, g, u) => (c, g, u + if ok then (n : Int) else 0)

/-- Total amount granted by a call sequence. -/
def sumGrants : List CreditOp → Int
  | [] => 0
  | .add n :: ops => n + sumGrants ops
  | .consume _ :: ops => sumGrants ops

/-- Aggregation operation of `Nagare.windowedAggregate`
(src/src/nagare.ts lines 429-501). -/
inductive AggOp where
  | sum
  | mean
  | min
  | max

/-- Pop entries from the BACK of a deque while their value is `≤ v`
(the `while` loop of `pushMax`, nagare.ts line 446).  The deque is a list with
the front (`dq[0]`) at the head; popping from the back removes the longest
removable suffix. -/
def popBackWhileLe (v : ℚ) : List (ℚ × Nat) → List (ℚ × Nat)
  | [] => []
  | q :: rest =>
    match popBackWhileLe v rest with
    | [] => if q.1 ≤ v then [] else [q]
    | r => q :: r

/-- Pop entries from the back while their value is `≥ v` (`pushMin`,
nagare.ts line 450). -/
def popBackWhileGe (v : ℚ) : List (ℚ × Nat) → List (ℚ × Nat)
  | [] => []
  | q :: rest =>
    match popBackWhileGe v rest with
    | [] => if v ≤ q.1 then [] else [q]
    | r => q :: r

/-- `pushMax` (nagare.ts lines 445-448): pop dominated entries, append the new
pair at the back. -/
def pushMax (v : ℚ) (idx : Nat) (dq : List (ℚ × Nat)) : List (ℚ × Nat) :=
  popBackWhileLe v dq ++ [(v, idx)]

/-- `pushMin` (nagare.ts lines 449-452). -/
def pushMin (v : ℚ) (idx : Nat) (dq : List (ℚ × Nat)) : List (ℚ × Nat) :=
  popBackWhileGe v dq ++ [(v, idx)]

/-- `evictOld` (nagare.ts lines 453-457): shift entries off the front whose
index has fallen out of the window `[index − windowSize + 1, index]`.  The
bound is computed in ℤ exactly as the JavaScript expression
`index - windowSize + 1` (which may be negative early on). -/
def evictOldAux (oldest : Int) : List (ℚ × Nat) → List (ℚ × Nat)
  | [] => []
  | q :: rest => if (q.2 : Int) < oldest then evictOldAux oldest rest else q :: rest

/-- The subsequence of pairs that strictly dominate everything after them:
the contents of `dqMax` (decreasing values, front = maximum). -/
def domMax : List (ℚ × Nat) → List (ℚ × Nat)
  | [] => []
  | q :: rest => if rest.all (fun r => r.1 < q.1) then q :: domMax rest else domMax rest

/-- The subsequence of pairs strictly below everything after them: the
contents of `dqMin` (increasing values, front = minimum). -/
def domMin : List (ℚ × Nat) → List (ℚ × Nat)
  | [] => []
  | q :: rest => if rest.all (fun r => q.1 < r.1) then q :: domMin rest else domMin rest

/-- Maximum of a list of values (0 for the empty list, which never arises). -/
def maxOf : List ℚ → ℚ
  | [] => 0
  | x :: l => l.foldl max x

/-- Minimum of a list of values. -/
def minOf : List ℚ → ℚ
  | [] => 0
  | x :: l => l.foldl min x

/-- The `(value, global_index)` pairs of a window `w` whose first element has
global index `off`: the contents of the deque window. -/
def idxWindow (w : List ℚ) (off : Nat) : List (ℚ × Nat) :=
  (List.range w.length).map (fun j => (w.getD j 0, off + j))

/-- Generator state of `Nagare.windowedAggregate` (nagare.ts lines 434-443):
circular value buffer `buf` with oldest index `start` and fill `count`,
incremental `sum`, the two monotonic deques, and the global position
`index`. -/
structure WinState where
  buf : List ℚ
  start : Nat
  count : Nat
  sum : ℚ
  dqMax : List (ℚ × Nat)
  dqMin : List (ℚ × Nat)
  index : Nat

/-- Initial state: `new Array(windowSize)` (unwritten cells modelled as 0; a
cell is only ever read after being written), zero cursors, empty deques. -/
def winInit (windowSize : Nat) : WinState :=
  ⟨List.replicate windowSize 0, 0, 0, 0, [], [], 0⟩

/-- The `switch (operation)` block of `windowedAggregate` (nagare.ts lines
483-495) computing the emitted aggregate from the incremental sum and the
deque fronts. -/
def winEmit (windowSize : Nat) (operation : AggOp) (sum2 : ℚ)
    (dqMax2 dqMin2 : List (ℚ × Nat)) : ℚ :=
  match operation with
  | .mean => sum2 / windowSize
  | .sum => sum2
  | .max => (dqMax2.headD (0, 0)).1
  | .min => (dqMin2.headD (0, 0)).1

/-- One loop iteration of `windowedAggregate` (nagare.ts lines 459-496):
write the value into the circular buffer (evicting the oldest once full, with
`sum += value - oldest`), push onto both deques and evict out-of-window
fronts, advance `index`, and once `count == windowSize` emit the aggregate
selected by `operation` (`mean`/`sum` from the incremental sum, `max`/`min`
from the deque fronts). -/
def winStep (windowSize : Nat) (operation : AggOp) (s : WinState) (value : ℚ) :
    WinState × Option ℚ :=
  let idx := (s.start + s.count) % windowSize
  let buf2 := if s.count < windowSize then s.buf.set idx value else s.buf.set s.start value
  let start2 := if s.count < windowSize then s.start else (s.start + 1) % windowSize
  let count2 := if s.count < windowSize then s.count + 1 else s.count
  let sum2 := if s.count < windowSize then s.sum + value
    else s.sum + value - s.buf.getD s.start 0
  let dqMax2 := evictOldAux ((s.index : Int) - windowSize + 1) (pushMax value s.index s.dqMax)
  let dqMin2 := evictOldAux ((s.index : Int) - windowSize + 1) (pushMin value s.index s.dqMin)
  let s2 : WinState := ⟨buf2, start2, count2, sum2, dqMax2, dqMin2, s.index + 1⟩
  if count2 = windowSize then (s2, some (winEmit windowSize operation sum2 dqMax2 dqMin2))
  else (s2, none)

/-- The generator loop: thread the state through the input stream, collecting
emissions. -/
def windowedAggregateRun (windowSize : Nat) (operation : AggOp) :
    WinState → List ℚ → List ℚ
  | _, [] => []
  | s, x :: xs =>
    match winStep windowSize operation s x with
    | (s2, none) => windowedAggregateRun windowSize operation s2 xs
    | (s2, some r) => r :: windowedAggregateRun windowSize operation s2 xs

/-- `from(xs).windowedAggregate(W, operation).toArray()`. -/
def windowedAggregateModel (W : Nat) (operation : AggOp) (xs : List ℚ) : List ℚ :=
  windowedAggregateRun W operation (winInit W) xs

/-- Aggregate of one window over exact rational arithmetic. -/
def aggSpec (W : Nat) (operation : AggOp) (w : List ℚ) : ℚ :=
  match operation with
  | .sum => w.sum
  | .mean => w.sum / W
  | .max => maxOf w
  | .min => minOf w

/-- The window `xs[i .. i+W)`. -/
def windowAt (W : Nat) (xs : List ℚ) (i : Nat) : List ℚ :=
  (xs.drop i).take W

/-- Expected emission at the `k`-th remaining input after a consumed prefix
`p`, phrased against the full stream `p ++ ys`: once `W` items have arrived
the aggregate of the latest full window is emitted. -/
def winSpecF (W : Nat) (op : AggOp) (p ys : List ℚ) (k : Nat) : Option ℚ :=
  if W ≤ p.length + k + 1
  then some (aggSpec W op (windowAt W (p ++ ys) (p.length + k + 1 - W)))
  else none

/-- Machine invariant after the generator has consumed the prefix `p`: the
circular buffer holds the last `min |p| W` values (read through
`(start + j) % W`), `sum` is their total, and the deques are the dominant
subsequences of the current indexed window. -/
structure WinInv (W : Nat) (p : List ℚ) (s : WinState) : Prop where
  hindex : s.index = p.length
  hcount : s.count = min p.length W
  hbuflen : s.buf.length = W
  hstart : s.start = (p.length - s.count) % W
  hbuf : ∀ j, j < s.count →
    s.buf.getD ((s.start + j) % W) 0 = (p.drop (p.length - s.count)).getD j 0
  hsum : s.sum = (p.drop (p.length - s.count)).sum
  hmax : s.dqMax = domMax (idxWindow (p.drop (p.length - s.count)) (p.length - s.count))
  hmin : s.dqMin = domMin (idxWindow (p.drop (p.length - s.count)) (p.length - s.count))

@[simp] theorem runFusedS_nil (ops : List (OpI α)) : runFusedS ops [] = (ops, []) := rfl

@[simp] theorem transduceS_nil (op : OpI α) : transduceS op [] = (op, []) := rfl

@[simp] theorem applyChain_nil (v : α) : applyChain ([] : List (OpI α)) v = ([], some v) := rfl

@[simp] theorem runFusedS_ops_nil (xs : List α) : runFusedS ([] : List (OpI α)) xs = ([], xs) := by
  induction xs with
  | nil => rfl
  | cons x xs ih => simp [runFusedS, ih]

/-- Fusing the head operator into the chain agrees with first transducing the
whole stream through it: one step of fusion correctness, with state threading. -/
theorem runFusedS_cons_chain :
    ∀ (xs : List α) (op : OpI α) (ops : List (OpI α)),
      runFusedS (op :: ops) xs =
        ((transduceS op xs).1 :: (runFusedS ops (transduceS op xs).2).1,
         (runFusedS ops (transduceS op xs).2).2) := by
  intro xs
  induction xs with
  | nil => intro op ops; rfl
  | cons x xs ih =>
    intro op ops
    rcases hs : op.step x with ⟨op1, r1⟩
    cases r1 with
    | none => simp [runFusedS, transduceS, applyChain, hs, ih]
    | some v =>
      rcases ha : applyChain ops v with ⟨ops1, r2⟩
      cases r2 with
      | none => simp [runFusedS, transduceS, applyChain, hs, ha, ih]
      | some w => simp [runFusedS, transduceS, applyChain, hs, ha, ih]

theorem runFused_cons (op : OpI α) (ops : List (OpI α)) (xs : List α) :
    runFused (op :: ops) xs = runFused ops (transduce op xs) := by
  simp [runFused, transduce, runFusedS_cons_chain]

/-- Fusion correctness for the pure synchronous fragment: the generic per-level
iteration and the fused per-item function produce the same output sequence. -/
theorem runLevels_eq_runFused (ops : List (Op α)) (xs : List α) :
    runLevels ops xs = runFused (ops.map Op.init) xs := by
  induction ops generalizing xs with
  | nil => simp [runLevels, runFused]
  | cons op ops ih =>
    have h1 : runLevels (op :: ops) xs = runLevels ops (transduce op.init xs) := rfl
    rw [h1, ih, List.map_cons, runFused_cons]

theorem runFusedS_append (ops : List (OpI α)) (l1 l2 : List α) :
    runFusedS ops (l1 ++ l2) =
      ((runFusedS (runFusedS ops l1).1 l2).1,
       (runFusedS ops l1).2 ++ (runFusedS (runFusedS ops l1).1 l2).2) := by
  induction l1 generalizing ops with
  | nil => simp
  | cons x l1 ih =>
    rcases ha : applyChain ops x with ⟨ops1, r⟩
    cases r with
    | none => simp [runFusedS, ha, ih]
    | some v => simp [runFusedS, ha, ih]

theorem runFused_append (ops : List (OpI α)) (l1 l2 : List α) :
    runFused ops (l1 ++ l2) = (runFusedS ops l1).2 ++ runFused (runFusedS ops l1).1 l2 := by
  simp [runFused, runFusedS_append]

/-- A chain of stateless operators is unchanged by applying it to a value. -/
theorem applyChain_stateless (ops : List (Op α)) (h : hasStatefulOps ops = false) (v : α) :
    (applyChain (ops.map Op.init) v).1 = ops.map Op.init := by
  induction ops generalizing v with
  | nil => rfl
  | cons op ops ih =>
    cases op with
    | map f =>
      rcases hf : f v with _ | v'
      · simp [applyChain, Op.init, OpI.step, hf]
      · have := ih (by simpa [hasStatefulOps] using h) v'
        rcases ha : applyChain (ops.map Op.init) v' with ⟨ops1, r⟩
        simp [applyChain, Op.init, OpI.step, hf, ha]
        simpa [ha] using this
    | filter p =>
      by_cases hp : p v
      · have := ih (by simpa [hasStatefulOps] using h) v
        rcases ha : applyChain (ops.map Op.init) v with ⟨ops1, r⟩
        simp [applyChain, Op.init, OpI.step, hp, ha]
        simpa [ha] using this
      · simp [applyChain, Op.init, OpI.step, hp]
    | scan f seed => simp [hasStatefulOps] at h
    | take n => simp [hasStatefulOps] at h
    | skip n => simp [hasStatefulOps] at h

/-- Running a stateless chain leaves its (absent) state unchanged. -/
theorem runFusedS_stateless (ops : List (Op α)) (h : hasStatefulOps ops = false)
    (xs : List α) : (runFusedS (ops.map Op.init) xs).1 = ops.map Op.init := by
  induction xs with
  | nil => rfl
  | cons x xs ih =>
    rcases ha : applyChain (ops.map Op.init) x with ⟨ops1, r⟩
    have hst := applyChain_stateless ops h x
    rw [ha] at hst
    subst hst
    cases r with
    | none => simpa [runFusedS, ha] using ih
    | some v => simpa [runFusedS, ha] using ih

/-- Output of a stateless chain on `x :: xs` decomposes item by item. -/
theorem runFused_stateless_cons (ops : List (Op α)) (h : hasStatefulOps ops = false)
    (x : α) (xs : List α) :
    runFused (ops.map Op.init) (x :: xs) =
      (applyChain (ops.map Op.init) x).2.toList ++ runFused (ops.map Op.init) xs := by
  rcases ha : applyChain (ops.map Op.init) x with ⟨ops1, r⟩
  have hst := applyChain_stateless ops h x
  rw [ha] at hst
  subst hst
  cases r with
  | none => simp [runFused, runFusedS, ha]
  | some v => simp [runFused, runFusedS, ha]

/-- A chain containing an exhausted `take` produces no value on any input, and
stays a chain containing an exhausted `take`. -/
theorem applyChain_exhausted (ops : List (OpI α)) (h : hasExhausted ops = true) (v : α) :
    (applyChain ops v).2 = none ∧ hasExhausted (applyChain ops v).1 = true := by
  induction ops generalizing v with
  | nil => simp [hasExhausted] at h
  | cons op ops ih =>
    rcases op with f | p | ⟨f, acc⟩ | ⟨n, cnt⟩ | ⟨n, cnt⟩
    · have hops : hasExhausted ops = true := by
        simpa [hasExhausted, OpI.exhausted] using h
      rcases hf : f v with _ | v'
      · simp [applyChain, OpI.step, hf, hasExhausted, OpI.exhausted, hops]
      · rcases ha : applyChain ops v' with ⟨ops1, r⟩
        obtain ⟨h1, h2⟩ := ih hops v'
        rw [ha] at h1 h2
        simp only at h1
        subst h1
        simp [applyChain, OpI.step, hf, ha, hasExhausted, OpI.exhausted, h2]
    · have hops : hasExhausted ops = true := by
        simpa [hasExhausted, OpI.exhausted] using h
      by_cases hp : p v
      · rcases ha : applyChain ops v with ⟨ops1, r⟩
        obtain ⟨h1, h2⟩ := ih hops v
        rw [ha] at h1 h2
        simp only at h1
        subst h1
        simp [applyChain, OpI.step, hp, ha, hasExhausted, OpI.exhausted, h2]
      · simp [applyChain, OpI.step, hp, hasExhausted, OpI.exhausted, hops]
    · have hops : hasExhausted ops = true := by
        simpa [hasExhausted, OpI.exhausted] using h
      rcases ha : applyChain ops (f acc v) with ⟨ops1, r⟩
      obtain ⟨h1, h2⟩ := ih hops (f acc v)
      rw [ha] at h1 h2
      simp only at h1
      subst h1
      simp [applyChain, OpI.step, ha, hasExhausted, OpI.exhausted, h2]
    · by_cases hle : n ≤ cnt
      · simp [applyChain, OpI.step, hle, hasExhausted, OpI.exhausted]
      · have hops : hasExhausted ops = true := by
          simpa [hasExhausted, OpI.exhausted, hle] using h
        rcases ha : applyChain ops v with ⟨ops1, r⟩
        obtain ⟨h1, h2⟩ := ih hops v
        rw [ha] at h1 h2
        simp only at h1
        subst h1
        simp [applyChain, OpI.step, hle, ha, hasExhausted, OpI.exhausted, h2]
    · have hops : hasExhausted ops = true := by
        simpa [hasExhausted, OpI.exhausted] using h
      by_cases hlt : cnt < n
      · simp [applyChain, OpI.step, hlt, hasExhausted, OpI.exhausted, hops]
      · rcases ha : applyChain ops v with ⟨ops1, r⟩
        obtain ⟨h1, h2⟩ := ih hops v
        rw [ha] at h1 h2
        simp only at h1
        subst h1
        simp [applyChain, OpI.step, hlt, ha, hasExhausted, OpI.exhausted, h2]

/-- A chain containing an exhausted `take` emits nothing at all. -/
theorem runFused_exhausted (ops : List (OpI α)) (h : hasExhausted ops = true)
    (xs : List α) : runFused ops xs = [] := by
  induction xs generalizing ops with
  | nil => rfl
  | cons x xs ih =>
    rcases ha : applyChain ops x with ⟨ops1, r⟩
    have := applyChain_exhausted ops h x
    rw [ha] at this
    rcases this with ⟨hnone, hex1⟩
    subst hnone
    simp [runFused, runFusedS, ha]
    exact ih ops1 hex1

/-- Stepwise correspondence between the scalar kernel body and the fused
per-item function: identical state updates; `continue` corresponds to no value,
`break` additionally certifies an exhausted `take` in the updated chain. -/
theorem applyChainK_spec (ops : List (OpI α)) (v : α) :
    (applyChainK ops v).1 = (applyChain ops v).1
    ∧ ((applyChainK ops v).2 = KStep.halt →
        (applyChain ops v).2 = none ∧ hasExhausted (applyChainK ops v).1 = true)
    ∧ ((applyChainK ops v).2 = KStep.drop → (applyChain ops v).2 = none)
    ∧ (∀ w, (applyChainK ops v).2 = KStep.emit w → (applyChain ops v).2 = some w) := by
  induction ops generalizing v with
  | nil => simp [applyChainK, applyChain]
  | cons op ops ih =>
    rcases op with f | p | ⟨f, acc⟩ | ⟨n, cnt⟩ | ⟨n, cnt⟩
    · rcases hf : f v with _ | v'
      · simp [applyChainK, applyChain, OpI.step, hf]
      · rcases hk : applyChainK ops v' with ⟨opsK, r⟩
        rcases ha : applyChain ops v' with ⟨opsA, rA⟩
        obtain ⟨hst, hhalt, hdrop, hemit⟩ := ih v'
        rw [hk, ha] at hst hhalt hdrop hemit
        simp only at hst hhalt hdrop hemit
        subst hst
        cases r with
        | halt =>
          simp [applyChainK, applyChain, OpI.step, hf, hk, ha, hasExhausted,
            OpI.exhausted, (hhalt rfl).1, (hhalt rfl).2]
        | drop => simp [applyChainK, applyChain, OpI.step, hf, hk, ha, hdrop rfl]
        | emit w => simp [applyChainK, applyChain, OpI.step, hf, hk, ha, hemit w rfl]
    · by_cases hp : p v
      · rcases hk : applyChainK ops v with ⟨opsK, r⟩
        rcases ha : applyChain ops v with ⟨opsA, rA⟩
        obtain ⟨hst, hhalt, hdrop, hemit⟩ := ih v
        rw [hk, ha] at hst hhalt hdrop hemit
        simp only at hst hhalt hdrop hemit
        subst hst
        cases r with
        | halt =>
          simp [applyChainK, applyChain, OpI.step, hp, hk, ha, hasExhausted,
            OpI.exhausted, (hhalt rfl).1, (hhalt rfl).2]
        | drop => simp [applyChainK, applyChain, OpI.step, hp, hk, ha, hdrop rfl]
        | emit w => simp [applyChainK, applyChain, OpI.step, hp, hk, ha, hemit w rfl]
      · simp [applyChainK, applyChain, OpI.step, hp]
    · rcases hk : applyChainK ops (f acc v) with ⟨opsK, r⟩
      rcases ha : applyChain ops (f acc v) with ⟨opsA, rA⟩
      obtain ⟨hst, hhalt, hdrop, hemit⟩ := ih (f acc v)
      rw [hk, ha] at hst hhalt hdrop hemit
      simp only at hst hhalt hdrop hemit
      subst hst
      cases r with
      | halt =>
        simp [applyChainK, applyChain, OpI.step, hk, ha, hasExhausted,
          OpI.exhausted, (hhalt rfl).1, (hhalt rfl).2]
      | drop => simp [applyChainK, applyChain, OpI.step, hk, ha, hdrop rfl]
      | emit w => simp [applyChainK, applyChain, OpI.step, hk, ha, hemit w rfl]
    · by_cases hle : n ≤ cnt
      · simp [applyChainK, applyChain, OpI.step, hle, hasExhausted, OpI.exhausted]
      · rcases hk : applyChainK ops v with ⟨opsK, r⟩
        rcases ha : applyChain ops v with ⟨opsA, rA⟩
        obtain ⟨hst, hhalt, hdrop, hemit⟩ := ih v
        rw [hk, ha] at hst hhalt hdrop hemit
        simp only at hst hhalt hdrop hemit
        subst hst
        cases r with
        | halt =>
          simp [applyChainK, applyChain, OpI.step, hle, hk, ha, hasExhausted,
            OpI.exhausted, (hhalt rfl).1, (hhalt rfl).2]
        | drop => simp [applyChainK, applyChain, OpI.step, hle, hk, ha, hdrop rfl]
        | emit w => simp [applyChainK, applyChain, OpI.step, hle, hk, ha, hemit w rfl]
    · by_cases hlt : cnt < n
      · simp [applyChainK, applyChain, OpI.step, hlt]
      · rcases hk : applyChainK ops v with ⟨opsK, r⟩
        rcases ha : applyChain ops v with ⟨opsA, rA⟩
        obtain ⟨hst, hhalt, hdrop, hemit⟩ := ih v
        rw [hk, ha] at hst hhalt hdrop hemit
        simp only at hst hhalt hdrop hemit
        subst hst
        cases r with
        | halt =>
          simp [applyChainK, applyChain, OpI.step, hlt, hk, ha, hasExhausted,
            OpI.exhausted, (hhalt rfl).1, (hhalt rfl).2]
        | drop => simp [applyChainK, applyChain, OpI.step, hlt, hk, ha, hdrop rfl]
        | emit w => simp [applyChainK, applyChain, OpI.step, hlt, hk, ha, hemit w rfl]

/-- Kernel correctness: the scalar array kernel (with its `take`-induced early
`break`) emits exactly the same outputs as the fused per-item function. -/
theorem runKernel_eq_runFused (ops : List (OpI α)) (xs : List α) :
    runKernel ops xs = runFused ops xs := by
  induction xs generalizing ops with
  | nil => rfl
  | cons x xs ih =>
    rcases hk : applyChainK ops x with ⟨opsK, r⟩
    rcases ha : applyChain ops x with ⟨opsA, rA⟩
    obtain ⟨hst, hhalt, hdrop, hemit⟩ := applyChainK_spec ops x
    rw [hk, ha] at hst hhalt hdrop hemit
    simp only at hst hhalt hdrop hemit
    subst hst
    cases r with
    | halt =>
      obtain ⟨h1, h2⟩ := hhalt rfl
      subst h1
      simp [runKernel, runKernelS, hk, runFused, runFusedS, ha]
      have := runFused_exhausted opsK h2 xs
      simpa [runFused] using this.symm
    | drop =>
      have h1 := hdrop rfl
      subst h1
      simpa [runKernel, runKernelS, hk, runFused, runFusedS, ha] using ih opsK
    | emit v =>
      have h1 := hemit v rfl
      subst h1
      simpa [runKernel, runKernelS, hk, runFused, runFusedS, ha] using ih opsK

/-- Poll count of the scalar kernel for a bare `take`: the loop reads exactly
one slot past the consumed items (the `break` happens on the first item that
reaches the already-exhausted `take`). -/
theorem kernelPolls_take (n : Nat) (xs : List α) :
    ∀ cnt, kernelPolls [OpI.take n cnt] xs = min (n - cnt + 1) xs.length := by
  induction xs with
  | nil => intro cnt; simp [kernelPolls, runKernelS]
  | cons x xs ih =>
    intro cnt
    by_cases hle : n ≤ cnt
    · have : n - cnt = 0 := by omega
      simp [kernelPolls, runKernelS, applyChainK, hle, this]
    · have hrec := ih (cnt + 1)
      simp only [kernelPolls] at hrec
      rcases hr : runKernelS [OpI.take n (cnt + 1)] xs with ⟨opsF, out, polls⟩
      rw [hr] at hrec
      simp only at hrec
      simp [kernelPolls, runKernelS, applyChainK, hle, hr, List.length_cons]
      omega

/-- Per-level semantics of `take`: emit the first `n - cnt` items. -/
theorem transduce_take (n : Nat) (xs : List α) :
    ∀ cnt, transduce (OpI.take n cnt) xs = xs.take (n - cnt) := by
  induction xs with
  | nil => intro cnt; simp [transduce]
  | cons x xs ih =>
    intro cnt
    by_cases hle : n ≤ cnt
    · have h0 : n - cnt = 0 := by omega
      simp [transduce, transduceS, OpI.step, hle, h0]
      simpa [transduce, h0] using ih cnt
    · have h1 : n - cnt = (n - (cnt + 1)) + 1 := by omega
      rcases ht : transduceS (OpI.take n (cnt + 1)) xs with ⟨opF, out⟩
      have := ih (cnt + 1)
      rw [transduce, ht] at this
      simp only at this
      simp [transduce, transduceS, OpI.step, hle, ht, h1, this]

/-- Per-level semantics of `skip`: drop the first `n - cnt` items. -/
theorem transduce_skip (n : Nat) (xs : List α) :
    ∀ cnt, transduce (OpI.skip n cnt) xs = xs.drop (n - cnt) := by
  induction xs with
  | nil => intro cnt; simp [transduce]
  | cons x xs ih =>
    intro cnt
    by_cases hlt : cnt < n
    · have h1 : n - cnt = (n - (cnt + 1)) + 1 := by omega
      simp [transduce, transduceS, OpI.step, hlt, h1]
      simpa [transduce] using ih (cnt + 1)
    · have h0 : n - cnt = 0 := by omega
      rcases ht : transduceS (OpI.skip n cnt) xs with ⟨opF, out⟩
      have := ih cnt
      rw [transduce, ht] at this
      simp only at this
      simp [transduce, transduceS, OpI.step, hlt, ht, h0, this]

theorem transduce_scan_cons (f : α → α → α) (a x : α) (xs : List α) :
    transduce (OpI.scan f a) (x :: xs) = f a x :: transduce (OpI.scan f (f a x)) xs := by
  rcases ht : transduceS (OpI.scan f (f a x)) xs with ⟨opF, out⟩
  simp [transduce, transduceS, OpI.step, ht]

/-- Per-level semantics of `scan`: the stream of running accumulator values,
which is the `scanl` of the input with the seed itself not emitted. -/
theorem transduce_scan (f : α → α → α) (xs : List α) :
    ∀ a, transduce (OpI.scan f a) xs = (List.scanl f a xs).tail := by
  induction xs with
  | nil => intro a; simp [transduce]
  | cons x xs ih =>
    intro a
    rw [transduce_scan_cons, ih (f a x)]
    cases xs with
    | nil => simp
    | cons y ys => simp [List.scanl_cons]

/-- The last value emitted by `scan` over a nonempty stream is the fold of the
whole stream. -/
theorem transduce_scan_getLast (f : α → α → α) (xs : List α) :
    ∀ (a x : α),
      (transduce (OpI.scan f a) (x :: xs)).getLast? = some ((x :: xs).foldl f a) := by
  induction xs with
  | nil => intro a x; simp [transduce, transduceS, OpI.step]
  | cons y ys ih =>
    intro a x
    have h := ih (f a x) y
    rw [transduce_scan_cons] at h
    rw [transduce_scan_cons, transduce_scan_cons, List.getLast?_cons_cons, h]
    rfl

theorem runFused_singleton (op : OpI α) (xs : List α) :
    runFused [op] xs = transduce op xs := by
  simp [runFused, transduce, runFusedS_cons_chain]

/-- Splitting a fused chain: the downstream part consumes exactly the output
stream of the upstream part, with both parts threading their own state. -/
theorem runFusedS_chain_append (ops1 ops2 : List (OpI α)) (xs : List α) :
    runFusedS (ops1 ++ ops2) xs =
      ((runFusedS ops1 xs).1 ++ (runFusedS ops2 (runFusedS ops1 xs).2).1,
       (runFusedS ops2 (runFusedS ops1 xs).2).2) := by
  induction ops1 generalizing xs with
  | nil => simp
  | cons op ops1 ih =>
    rw [List.cons_append, runFusedS_cons_chain xs op (ops1 ++ ops2),
      runFusedS_cons_chain xs op ops1, ih]
    simp

theorem runFused_chain_append (ops1 ops2 : List (OpI α)) (xs : List α) :
    runFused (ops1 ++ ops2) xs = runFused ops2 (runFused ops1 xs) := by
  simp [runFused, runFusedS_chain_append]

/-- Stage-major evaluation of a block equals item-major evaluation: pushing the
head lane through the whole chain first, then the remaining lanes, gives the
same states and lane results. -/
theorem blockChain_cons_lane (ops : List (OpI α)) (l : Option α) (ls : List (Option α)) :
    blockChain ops (l :: ls) =
      ((blockChain (chainLane ops l).1 ls).1,
       (chainLane ops l).2 :: (blockChain (chainLane ops l).1 ls).2) := by
  induction ops generalizing l ls with
  | nil =>
    cases l with
    | none => simp [blockChain, chainLane]
    | some v => simp [blockChain, chainLane]
  | cons op ops ih =>
    rcases hsl : stepLane op l with ⟨op1, l1⟩
    rcases hbs : blockStage op1 ls with ⟨op2, ls1⟩
    have key : chainLane (op :: ops) l = ((op1 :: (chainLane ops l1).1), (chainLane ops l1).2) := by
      cases l with
      | none =>
        obtain ⟨h1, h2⟩ : op = op1 ∧ none = l1 := by simpa [stepLane] using hsl
        subst h1
        cases h2
        simp [chainLane]
      | some v =>
        have hsl2 : op.step v = (op1, l1) := by simpa [stepLane] using hsl
        cases l1 with
        | none => simp [chainLane, applyChain, hsl2]
        | some v1 =>
          rcases ha : applyChain ops v1 with ⟨ops1, r⟩
          simp [chainLane, applyChain, hsl2, ha]
    rw [key]
    have lhs1 : blockChain (op :: ops) (l :: ls) =
        ((op2 :: (blockChain ops (l1 :: ls1)).1), (blockChain ops (l1 :: ls1)).2) := by
      rcases hbc : blockChain ops (l1 :: ls1) with ⟨opsF, ls2⟩
      simp [blockChain, blockStage, hsl, hbs, hbc]
    rw [lhs1, ih l1 ls1]
    have rhs1 : blockChain (op1 :: (chainLane ops l1).1) ls =
        ((op2 :: (blockChain (chainLane ops l1).1 ls1).1),
         (blockChain (chainLane ops l1).1 ls1).2) := by
      rcases hbc2 : blockChain (chainLane ops l1).1 ls1 with ⟨opsF, ls2⟩
      simp [blockChain, hbs, hbc2]
    rw [rhs1]

@[simp] theorem blockChain_nil_lanes :
    ∀ ops : List (OpI α), blockChain ops ([] : List (Option α)) = (ops, []) := by
  intro ops
  induction ops with
  | nil => rfl
  | cons op ops ih => simp [blockChain, blockStage, ih]

/-- Stage-major evaluation of a block of live lanes is the fused per-item run
of the block: same final states, and the surviving lanes are its outputs. -/
theorem blockChain_map_some (block : List α) :
    ∀ ops : List (OpI α),
      (blockChain ops (block.map some)).1 = (runFusedS ops block).1
      ∧ (blockChain ops (block.map some)).2.reduceOption = (runFusedS ops block).2 := by
  induction block with
  | nil => intro ops; simp
  | cons x block ih =>
    intro ops
    rcases ha : applyChain ops x with ⟨ops1, r⟩
    have hcl : chainLane ops (some x) = (ops1, r) := by simp [chainLane, ha]
    rw [List.map_cons, blockChain_cons_lane, hcl]
    obtain ⟨ih1, ih2⟩ := ih ops1
    cases r with
    | none =>
      refine ⟨by simpa [runFusedS, ha] using ih1, ?_⟩
      simpa [runFusedS, ha, List.reduceOption] using ih2
    | some v =>
      refine ⟨by simpa [runFusedS, ha] using ih1, ?_⟩
      simpa [runFusedS, ha, List.reduceOption] using ih2

/-- Characterisation of the unrolled main loop: it is the fused run of the
largest multiple-of-four prefix, and the leftover is the remaining suffix. -/
theorem runBlocksS_spec :
    ∀ (xs : List α) (ops : List (OpI α)),
      runBlocksS ops xs =
        ((runFusedS ops (xs.take (xs.length - xs.length % 4))).1,
         (runFusedS ops (xs.take (xs.length - xs.length % 4))).2,
         xs.drop (xs.length - xs.length % 4))
  | [], ops => by simp [runBlocksS]
  | [a], ops => by simp [runBlocksS]
  | [a, b], ops => by simp [runBlocksS]
  | [a, b, c], ops => by simp [runBlocksS]
  | a :: b :: c :: d :: rest, ops => by
    have hlen : (a :: b :: c :: d :: rest).length - (a :: b :: c :: d :: rest).length % 4
        = (rest.length - rest.length % 4) + 4 := by
      simp [List.length_cons]
      omega
    have htake : (a :: b :: c :: d :: rest).take ((rest.length - rest.length % 4) + 4)
        = a :: b :: c :: d :: rest.take (rest.length - rest.length % 4) := by
      simp [List.take_succ_cons]
    have hdrop : (a :: b :: c :: d :: rest).drop ((rest.length - rest.length % 4) + 4)
        = rest.drop (rest.length - rest.length % 4) := by
      simp [List.drop_succ_cons]
    rw [hlen, htake, hdrop]
    obtain ⟨hb1, hb2⟩ := blockChain_map_some [a, b, c, d] ops
    simp only [List.map_cons, List.map_nil] at hb1 hb2
    rcases hbc : blockChain ops [some a, some b, some c, some d] with ⟨ops1, lanes⟩
    rw [hbc] at hb1 hb2
    simp only at hb1 hb2
    have hrec := runBlocksS_spec rest ops1
    rcases hrb : runBlocksS ops1 rest with ⟨opsF, out, leftover⟩
    rw [hrb] at hrec
    have happ := runFusedS_append ops [a, b, c, d] (rest.take (rest.length - rest.length % 4))
    have hcons : a :: b :: c :: d :: rest.take (rest.length - rest.length % 4)
        = [a, b, c, d] ++ rest.take (rest.length - rest.length % 4) := by simp
    rw [hcons, happ, ← hb1]
    simp [runBlocksS, hbc, hrb]
    simp only [Prod.mk.injEq] at hrec
    exact ⟨hrec.1, by rw [hrec.2.1, hb2], hrec.2.2⟩

theorem stateless_no_scan {ops : List (Op α)} (h : hasStatefulOps ops = false) :
    hasScanOp ops = false ∧ hasTakeOp ops = false ∧ hasSkipOp ops = false := by
  induction ops with
  | nil => simp [hasScanOp, hasTakeOp, hasSkipOp]
  | cons op ops ih =>
    cases op with
    | map f =>
      have := ih (by simpa [hasStatefulOps] using h)
      simpa [hasScanOp, hasTakeOp, hasSkipOp] using this
    | filter p =>
      have := ih (by simpa [hasStatefulOps] using h)
      simpa [hasScanOp, hasTakeOp, hasSkipOp] using this
    | scan f seed => simp [hasStatefulOps] at h
    | take n => simp [hasStatefulOps] at h
    | skip n => simp [hasStatefulOps] at h

theorem no_state_of_no_kinds {ops : List (Op α)} (hsc : hasScanOp ops = false)
    (hta : hasTakeOp ops = false) (hsk : hasSkipOp ops = false) :
    hasStatefulOps ops = false := by
  induction ops with
  | nil => simp [hasStatefulOps]
  | cons op ops ih =>
    cases op with
    | map f =>
      simp [hasScanOp] at hsc
      simp [hasTakeOp] at hta
      simp [hasSkipOp] at hsk
      simpa [hasStatefulOps] using ih hsc hta hsk
    | filter p =>
      simp [hasScanOp] at hsc
      simp [hasTakeOp] at hta
      simp [hasSkipOp] at hsk
      simpa [hasStatefulOps] using ih hsc hta hsk
    | scan f seed => simp [hasScanOp] at hsc
    | take n => simp [hasTakeOp] at hta
    | skip n => simp [hasSkipOp] at hsk

/-- Decomposition of the unrolled kernel: the fused run of the largest
multiple-of-four prefix, followed by a freshly initialised fused run of the
remainder (the scalar tail's state variables are fresh). -/
theorem runUnrolledFrom_spec (ops : List (Op α)) (ys : List α) :
    runUnrolledFrom ops ys
      = runFused (ops.map Op.init) (ys.take (ys.length - ys.length % 4))
        ++ runFused (ops.map Op.init) (ys.drop (ys.length - ys.length % 4)) := by
  rcases hrb : runBlocksS (ops.map Op.init) ys with ⟨opsF, out, leftover⟩
  have hs := runBlocksS_spec ys (ops.map Op.init)
  rw [hrb] at hs
  simp only [Prod.mk.injEq] at hs
  obtain ⟨-, hout, hleft⟩ := hs
  calc runUnrolledFrom ops ys
      = out ++ runFused (ops.map Op.init) leftover := by simp [runUnrolledFrom, hrb]
    _ = runFused (ops.map Op.init) (ys.take (ys.length - ys.length % 4))
          ++ runFused (ops.map Op.init) (ys.drop (ys.length - ys.length % 4)) := by
        simp [runFused, hout, hleft]

/-- On a stateless chain the unrolled kernel agrees with the fused run: with no
state to carry, the fresh state variables of its scalar tail are harmless. -/
theorem runUnrolledFrom_stateless (ops : List (Op α)) (h : hasStatefulOps ops = false)
    (ys : List α) : runUnrolledFrom ops ys = runFused (ops.map Op.init) ys := by
  rw [runUnrolledFrom_spec]
  conv_rhs => rw [← List.take_append_drop (ys.length - ys.length % 4) ys]
  rw [runFused_append, runFusedS_stateless ops h, runFused]

/-- The kernel path computes the fused run, provided the unrolled kernel is not
selected for a chain containing `skip` (whose cursor its scalar tail resets). -/
theorem kernelPath_eq_runFused (jitFast : Bool) (fullLen : Nat) (ops : List (Op α))
    (ys : List α)
    (h : jitFast = false ∨ fullLen < 200000 ∨ hasSkipOp ops = false) :
    kernelPath jitFast fullLen ops ys = runFused (ops.map Op.init) ys := by
  unfold kernelPath
  by_cases h1 : jitFast = true ∧ hasScanOp ops = false
  · rw [if_pos h1]
    by_cases h2 : 200000 ≤ fullLen ∧ hasTakeOp ops = false
    · rw [if_pos h2]
      have hskip : hasSkipOp ops = false := by
        rcases h with h | h | h
        · rw [h1.1] at h; exact absurd h (by simp)
        · omega
        · exact h
      exact runUnrolledFrom_stateless ops (no_state_of_no_kinds h1.2 h2.2 hskip) ys
    · rw [if_neg h2]
      exact runKernel_eq_runFused _ _
  · rw [if_neg h1]

/-- The `toArray` dispatch computes the fused (equivalently per-level) run
under every configuration, provided the unrolled kernel is not selected for a
chain containing `skip`. -/
theorem toArrayModel_eq_runFused (fusionEnabled jitFast : Bool) (ops : List (Op α))
    (xs : List α)
    (h : jitFast = false ∨ xs.length < 200000 ∨ hasSkipOp ops = false) :
    toArrayModel fusionEnabled jitFast ops xs = runFused (ops.map Op.init) xs := by
  unfold toArrayModel
  by_cases h0 : fusionEnabled = true ∧ ops.isEmpty = false
  · rw [if_pos h0]
    by_cases hst : hasStatefulOps ops = false
    · rw [if_pos hst]
      cases xs with
      | nil => simp [runFused]
      | cons x rest =>
        have hskip : hasSkipOp ops = false := (stateless_no_scan hst).2.2
        show (applyChain (ops.map Op.init) x).2.toList
            ++ kernelPath jitFast (x :: rest).length ops rest
          = runFused (ops.map Op.init) (x :: rest)
        rw [kernelPath_eq_runFused jitFast _ ops rest (Or.inr (Or.inr hskip))]
        exact (runFused_stateless_cons ops hst x rest).symm
    · rw [if_neg hst]
      exact kernelPath_eq_runFused jitFast _ ops xs h
  · rw [if_neg h0]
    exact runLevels_eq_runFused ops xs

theorem runFused_single_skip (n : Nat) (l : List α) :
    runFused (([Op.skip n] : List (Op α)).map Op.init) l = l.drop n := by
  show runFused [OpI.skip n 0] l = l.drop n
  rw [runFused_singleton, transduce_skip n l 0, Nat.sub_zero]

/-- C1 (amended): for every array source and every chain of pure synchronous
operators under Drop policy, all four configurations
`fusion_enabled ∈ {true,false} × jit_mode ∈ {fast,off}` — JIT-compiled
per-item function, closure-composed fused function, array kernels, and generic
per-level iteration — produce the same output sequence on a fresh pipeline
instance, PROVIDED the source is below the 200 000-element unroll threshold or
the chain contains no `skip`: the unrolled kernel selected above the threshold
re-initialises `skip` cursors in its scalar tail and can diverge. -/
theorem C1_fusion_jit_invariance (fusionEnabled jitFast : Bool) (ops : List (Op α))
    (xs : List α) (h : xs.length < 200000 ∨ hasSkipOp ops = false) :
    toArrayModel fusionEnabled jitFast ops xs = runLevels ops xs := by
  rw [toArrayModel_eq_runFused _ _ _ _ (Or.inr h), runLevels_eq_runFused]

theorem C1_fusion_jit_invariance_witness :
    (([(1:Int), 2, 3, 4, 5] : List Int).length < 200000
      ∨ hasSkipOp ([Op.take 2] : List (Op Int)) = false)
    ∧ toArrayModel true true [Op.take 2] [(1:Int), 2, 3, 4, 5]
        = runLevels [Op.take 2] [(1:Int), 2, 3, 4, 5] :=
  ⟨Or.inl (by decide),
    C1_fusion_jit_invariance true true [Op.take 2] [(1:Int), 2, 3, 4, 5] (Or.inl (by decide))⟩

/-- C1 counterexample: at the unroll threshold, `skip(1)` over 200 001 items
yields 199 999 items under `fusion on, jit fast` (the unrolled kernel's scalar
tail restarts the skip cursor and drops one extra item) but 200 000 items
under `fusion on, jit off`, so the four configurations do not agree. -/
theorem C1_counterexample :
    toArrayModel true true [Op.skip 1] (List.replicate 200001 (0:Int))
      ≠ toArrayModel true false [Op.skip 1] (List.replicate 200001 (0:Int)) := by
  have hsub : (200001 - 1 : Nat) = 200000 := by norm_num
  have hoff : toArrayModel true false [Op.skip 1] (List.replicate 200001 (0:Int))
      = List.replicate 200000 (0:Int) := by
    rw [toArrayModel_eq_runFused true false _ _ (Or.inl rfl), runFused_single_skip,
      List.drop_replicate, hsub]
  have hlen : (List.replicate 200001 (0:Int)).length = 200001 := by
    rw [List.length_replicate]
  have hfast : toArrayModel true true [Op.skip 1] (List.replicate 200001 (0:Int))
      = List.replicate 199999 (0:Int) := by
    have c1 : (true = true ∧ (([Op.skip 1] : List (Op Int))).isEmpty = false) := ⟨rfl, rfl⟩
    have c2 : ¬ (hasStatefulOps ([Op.skip 1] : List (Op Int)) = false) := by
      intro hcontra
      exact absurd hcontra (by simp [hasStatefulOps])
    have c3 : 200000 ≤ (List.replicate 200001 (0:Int)).length
        ∧ hasTakeOp ([Op.skip 1] : List (Op Int)) = false :=
      ⟨by rw [hlen]; omega, rfl⟩
    unfold toArrayModel
    rw [if_pos c1, if_neg c2]
    unfold kernelPath
    rw [if_pos ⟨rfl, rfl⟩, if_pos c3, runUnrolledFrom_spec, hlen]
    have hm : (200001 - 200001 % 4 : Nat) = 200000 := by norm_num
    rw [hm, List.take_replicate, List.drop_replicate]
    have hmin : (min 200000 200001 : Nat) = 200000 := by norm_num
    have hs1 : (200001 - 200000 : Nat) = 1 := by norm_num
    rw [hmin, hs1, runFused_single_skip, runFused_single_skip,
      List.drop_replicate, List.drop_replicate]
    have h3 : (1 - 1 : Nat) = 0 := by norm_num
    have h2 : (200000 - 1 : Nat) = 199999 := by norm_num
    rw [h3, h2, List.replicate_zero, List.append_nil]
  rw [hoff, hfast]
  intro hEq
  have hlen2 := congrArg List.length hEq
  rw [List.length_replicate, List.length_replicate] at hlen2
  exact absurd hlen2 (by norm_num)

theorem runFused_single_take (n : Nat) (l : List α) :
    runFused (([Op.take n] : List (Op α)).map Op.init) l = l.take n := by
  show runFused [OpI.take n 0] l = l.take n
  rw [runFused_singleton, transduce_take n l 0, Nat.sub_zero]

theorem take_stage_length (pre : List (Op α)) (n : Nat) (xs : List α) :
    (runFused ((pre ++ [Op.take n]).map Op.init) xs).length
      = min n (runFused (pre.map Op.init) xs).length := by
  rw [List.map_append, runFused_chain_append, runFused_single_take, List.length_take]

theorem toArrayPolls_take_fast (n : Nat) (xs : List α) :
    toArrayPolls true true [Op.take n] xs = min (n + 1) xs.length := by
  unfold toArrayPolls
  rw [if_pos ⟨rfl, rfl⟩, if_neg (by simp [hasStatefulOps] :
    ¬ (hasStatefulOps ([Op.take n] : List (Op α)) = false))]
  unfold kernelPathPolls
  rw [if_pos ⟨rfl, rfl⟩,
    if_neg (fun h => by simpa [hasTakeOp] using h.2)]
  have h := kernelPolls_take n xs 0
  rw [Nat.sub_zero] at h
  exact h

theorem toArrayPolls_take_off (n : Nat) (xs : List α) :
    toArrayPolls true false [Op.take n] xs = xs.length := by
  unfold toArrayPolls
  rw [if_pos ⟨rfl, rfl⟩, if_neg (by simp [hasStatefulOps] :
    ¬ (hasStatefulOps ([Op.take n] : List (Op α)) = false))]
  unfold kernelPathPolls
  rw [if_neg (fun h => by simpa using h.1)]

theorem toArrayModel_take (fusionEnabled jitFast : Bool) (n : Nat) (xs : List α) :
    toArrayModel fusionEnabled jitFast [Op.take n] xs = xs.take n := by
  rw [toArrayModel_eq_runFused fusionEnabled jitFast [Op.take n] xs (Or.inr (Or.inr rfl)),
    runFused_single_take]

/-- C2 (amended): for every array source and synchronous chain containing
`take(n)`, under every configuration: (1) the take stage passes on exactly
`min(n, number of items reaching it)` values; (2) once the take cursor is
exhausted, the item produces no value and no subsequent stage runs (the
downstream operator states are returned untouched); (3) the stream ends — but
the source may still be polled past the last consumed item: the jit-fast
scalar kernel reads exactly one slot past the point of exhaustion
(`min(n+1, |X|)` slots for a bare `take(n)`), while the jit-off per-item loop
reads the entire array; outputs are `X.take n` in every configuration. -/
theorem C2_take_short_circuit {α : Type} :
    (∀ (pre : List (Op α)) (n : Nat) (xs : List α),
        (runFused ((pre ++ [Op.take n]).map Op.init) xs).length
          = min n (runFused (pre.map Op.init) xs).length)
    ∧ (∀ (n k : Nat) (post : List (OpI α)) (v : α),
        applyChain (OpI.take n (n + k) :: post) v = (OpI.take n (n + k) :: post, none))
    ∧ (∀ (n : Nat) (xs : List α),
        toArrayPolls true true [Op.take n] xs = min (n + 1) xs.length)
    ∧ (∀ (n : Nat) (xs : List α), toArrayPolls true false [Op.take n] xs = xs.length)
    ∧ (∀ (fusionEnabled jitFast : Bool) (n : Nat) (xs : List α),
        toArrayModel fusionEnabled jitFast [Op.take n] xs = xs.take n) := by
  refine ⟨take_stage_length, ?_, toArrayPolls_take_fast, toArrayPolls_take_off, toArrayModel_take⟩
  intro n k post v
  simp [applyChain, OpI.step, Nat.le_add_right]

/-- C2 counterexample: with `take(1)` over `[1,2,3]`, only the first element is
consumed, yet the jit-off configuration polls all three source slots and even
the jit-fast kernel polls two — the source IS polled beyond the last consumed
item. -/
theorem C2_counterexample :
    toArrayModel true false [Op.take 1] [(1:Int), 2, 3] = [1]
    ∧ toArrayPolls true false [Op.take 1] [(1:Int), 2, 3] = 3
    ∧ toArrayPolls true true [Op.take 1] [(1:Int), 2, 3] = 2 := by
  decide

theorem runLevels_nil (ops : List (Op α)) : runLevels ops ([] : List α) = [] := by
  induction ops with
  | nil => rfl
  | cons op ops ih =>
    show runLevels ops (transduce op.init []) = []
    exact ih

theorem toArrayModel_nil (fusionEnabled jitFast : Bool) (ops : List (Op α)) :
    toArrayModel fusionEnabled jitFast ops ([] : List α) = [] := by
  unfold toArrayModel
  by_cases h0 : (fusionEnabled = true ∧ ops.isEmpty = false)
  · rw [if_pos h0]
    by_cases hst : hasStatefulOps ops = false
    · rw [if_pos hst]
    · rw [if_neg hst]
      unfold kernelPath
      by_cases h1 : (jitFast = true ∧ hasScanOp ops = false)
      · rw [if_pos h1]
        by_cases h2 : (200000 ≤ ([] : List α).length ∧ hasTakeOp ops = false)
        · exfalso
          have := h2.1
          simp at this
        · rw [if_neg h2]; rfl
      · rw [if_neg h1]; rfl
  · rw [if_neg h0]
    exact runLevels_nil ops

/-- C3: in `from(X).map(f).rescue(h)` with `f` possibly throwing and `h` total,
every `x ∈ X` contributes exactly one output: `f(x)` when `f` does not throw,
otherwise `h(err)`; and the recovered value short-circuits the remaining
operators — a throwing stage makes the guarded function return `h(err)`
directly, whatever operators follow. -/
theorem C3_rescue_map {α ε : Type} :
    (∀ (f : α → Except ε α) (h : ε → α) (X : List α),
        guardedRun (fun e => some (h e)) [mapThrows f] X
          = X.map (fun x => match f x with | .ok v => v | .error e => h e))
    ∧ (∀ (h2 : ε → Option α) (e : ε) (gs : List (α → Except ε (Option α))) (v : α),
        guardedApply h2 ((fun _ => .error e) :: gs) v = h2 e) := by
  constructor
  · intro f h X
    induction X with
    | nil => rfl
    | cons x xs ih =>
      have hx : guardedApply (fun e => some (h e)) [mapThrows f] x
          = some (match f x with | .ok v => v | .error e => h e) := by
        rcases hf : f x with v | e <;> simp [guardedApply, mapThrows, hf, Except.map]
      simp only [guardedRun, List.filterMap_cons, hx, List.map_cons]
      simpa [guardedRun] using ih
  · intro h2 e gs v
    rfl

/-- C4 (amended): `from(X).scan(+, 0).toArray()` is the list of prefix sums of
`X` (the seed is not emitted) under every configuration, and for NONEMPTY `X`
`last()` equals `Σ X`; concretely `from([1,2,3,4,5]).scan(+,0).toArray() =
[1,3,6,10,15]`.  (For empty `X`, `last()` resolves to `undefined`, not `0`.) -/
theorem C4_scan_prefix_sums (fusionEnabled jitFast : Bool) :
    (∀ X : List Int,
        toArrayModel fusionEnabled jitFast [Op.scan (· + ·) 0] X
          = (List.scanl (· + ·) 0 X).tail)
    ∧ (∀ X : List Int, X ≠ [] →
        lastModel fusionEnabled jitFast [Op.scan (· + ·) 0] X = some X.sum)
    ∧ toArrayModel fusionEnabled jitFast [Op.scan (· + ·) 0] [(1:Int), 2, 3, 4, 5]
        = [1, 3, 6, 10, 15] := by
  have key : ∀ X : List Int, toArrayModel fusionEnabled jitFast [Op.scan (· + ·) 0] X
      = transduce (OpI.scan (· + ·) 0) X := by
    intro X
    rw [toArrayModel_eq_runFused fusionEnabled jitFast [Op.scan (· + ·) 0] X
      (Or.inr (Or.inr rfl))]
    exact runFused_singleton (OpI.scan (· + ·) 0) X
  refine ⟨fun X => by rw [key, transduce_scan], ?_, ?_⟩
  · intro X hne
    cases X with
    | nil => exact absurd rfl hne
    | cons x xs =>
      unfold lastModel
      rw [key, transduce_scan_getLast, List.sum_eq_foldl]
  · rw [key]
    decide

theorem C4_scan_prefix_sums_witness :
    (([(1:Int), 2, 3] : List Int) ≠ [])
    ∧ lastModel true true [Op.scan (· + ·) 0] [(1:Int), 2, 3]
        = some ([(1:Int), 2, 3].sum) :=
  ⟨by decide, (C4_scan_prefix_sums true true).2.1 [(1:Int), 2, 3] (by decide)⟩

/-- C4 counterexample: on the empty list, `last()` resolves to `undefined`
(`none`), which is not the sum `0`, so "last() equals Σ X" fails at `X = []`. -/
theorem C4_counterexample :
    lastModel true true [Op.scan (· + ·) 0] ([] : List Int)
      ≠ some (List.sum ([] : List Int)) := by
  decide

/-- C6: the spec requires stateful operators to carry a fresh state instance
per iteration, but the closure state persists: after one full run of
`scan(+,0)` over `[1,2,3]` (output `[1,3,6]`), running the same operator
objects again yields `[7,9,12]`, not `[1,3,6]`.  This is the behaviour of
every configuration in which the closure-composed fused path executes (fusion
off, jit off — and even jit fast, whose generated scan prologue
`let aN = aN;` is a JavaScript SyntaxError forcing the closure fallback). -/
theorem C6_reiteration_state_leak :
    runFused (([Op.scan (· + ·) 0] : List (Op Int)).map Op.init) [1, 2, 3] = [1, 3, 6]
    ∧ runFused (statesAfter [Op.scan (· + ·) 0] [1, 2, 3]) [1, 2, 3] = [7, 9, 12] := by
  decide

/-- C10: with an empty base source, every finalizer yields its identity under
every configuration, operator chain and error policy: `toArray = []`,
`first/last = undefined`, `count = 0`, `all = true`, `some = false`; no
operator stage is ever executed. -/
theorem C10_empty_source {α ε : Type} :
    (∀ (fusionEnabled jitFast : Bool) (ops : List (Op α)),
        toArrayModel fusionEnabled jitFast ops ([] : List α) = []
        ∧ firstModel fusionEnabled jitFast ops [] = none
        ∧ lastModel fusionEnabled jitFast ops [] = none
        ∧ countModel fusionEnabled jitFast ops [] = 0)
    ∧ (∀ (fusionEnabled jitFast : Bool) (ops : List (Op α)) (p : α → Bool),
        allModel fusionEnabled jitFast ops p [] = true
        ∧ someModel fusionEnabled jitFast ops p [] = false)
    ∧ (∀ (h : ε → Option α) (gs : List (α → Except ε (Option α))),
        guardedRun h gs [] = [])
    ∧ (∀ ops : List (OpI α), runFusedCalls ops ([] : List α) = 0) := by
  refine ⟨?_, ?_, fun h gs => rfl, fun ops => rfl⟩
  · intro fusionEnabled jitFast ops
    have h := toArrayModel_nil (α := α) fusionEnabled jitFast ops
    refine ⟨h, ?_, ?_, ?_⟩
    · unfold firstModel; rw [h]; rfl
    · unfold lastModel; rw [h]; rfl
    · unfold countModel; rw [h]; rfl
  · intro fusionEnabled jitFast ops p
    have h := toArrayModel_nil (α := α) fusionEnabled jitFast ops
    constructor
    · unfold allModel; rw [h]; rfl
    · unfold someModel; rw [h]; rfl

theorem distinctUntilChangedGo_destutter [DecidableEq α] (xs : List α) :
    ∀ p : α, p :: distinctUntilChangedGo (some p) xs = List.destutter' (· ≠ ·) p xs := by
  induction xs with
  | nil => intro p; simp [distinctUntilChangedGo]
  | cons x xs ih =>
    intro p
    rw [List.destutter'_cons]
    by_cases hxp : x = p
    · subst hxp
      rw [if_neg (by simp : ¬ x ≠ x)]
      simpa [distinctUntilChangedGo] using ih x
    · rw [if_pos (Ne.symm hxp)]
      have hGo : distinctUntilChangedGo (some p) (x :: xs)
          = x :: distinctUntilChangedGo (some x) xs := by
        simp [distinctUntilChangedGo, hxp]
      rw [hGo, ih x]

/-- C8: `distinctUntilChanged` emits the first upstream item unconditionally
and thereafter drops exactly the items equal to the previously emitted value
(it computes `List.destutter (· ≠ ·)`), and scenario S4 holds:
`from([1,1,2,2,3,3]) |> distinctUntilChanged |> startWith(0) |> toArray`
yields `[0,1,2,3]`. -/
theorem C8_distinctUntilChanged :
    (∀ xs : List Int, distinctUntilChangedModel xs = xs.destutter (· ≠ ·))
    ∧ startWithModel [0] (distinctUntilChangedModel [1, 1, 2, 2, 3, 3])
        = [(0 : Int), 1, 2, 3] := by
  constructor
  · intro xs
    cases xs with
    | nil => rfl
    | cons x xs =>
      rw [List.destutter_cons', distinctUntilChangedModel]
      show x :: distinctUntilChangedGo (some x) xs = _
      exact distinctUntilChangedGo_destutter xs x
  · decide

theorem getLastD_cons_eq {γ : Type} (a x : γ) (l : List γ) :
    (x :: l).getLastD a = l.getLastD x := by
  cases l with
  | nil => rfl
  | cons y ys => rfl

theorem padWith_cons {γ : Type} (a : γ) (m : Nat) (x : γ) (l : List γ) :
    padWith a (m + 1) (x :: l) = x :: padWith x m l := by
  unfold padWith
  rw [List.length_cons, Nat.succ_sub_succ, getLastD_cons_eq, List.cons_append]

theorem padWith_nil {γ : Type} (a : γ) (m : Nat) :
    padWith a m ([] : List γ) = List.replicate m a := by
  simp [padWith]

theorem padWith_length_self {γ : Type} (a : γ) (l : List γ) :
    padWith a l.length l = l := by
  simp [padWith]

theorem padWith_length {γ : Type} (a : γ) (n : Nat) (l : List γ) (h : l.length ≤ n) :
    (padWith a n l).length = n := by
  simp [padWith]
  omega

theorem zip_replicate_right_self {γ δ : Type} (b : δ) :
    ∀ l : List γ, List.zip l (List.replicate l.length b) = l.map fun c => (c, b)
  | [] => rfl
  | x :: l => by
    rw [List.length_cons, List.replicate_succ, List.zip_cons_cons, List.map_cons,
      zip_replicate_right_self b l]

theorem zip_replicate_left_self {γ δ : Type} (a : γ) :
    ∀ l : List δ, List.zip (List.replicate l.length a) l = l.map fun c => (a, c)
  | [] => rfl
  | x :: l => by
    rw [List.length_cons, List.replicate_succ, List.zip_cons_cons, List.map_cons,
      zip_replicate_left_self a l]

theorem combineLoop_some {β : Type} :
    ∀ (xs : List α) (ys : List β) (a : α) (b : β),
      combineLoop xs ys (some a) (some b)
        = List.zip (padWith a (max xs.length ys.length) xs)
            (padWith b (max xs.length ys.length) ys)
  | [], [], a, b => by simp [combineLoop, padWith]
  | x :: xs, y :: ys, a, b => by
    have hred : combineLoop (x :: xs) (y :: ys) (some a) (some b)
        = (x, y) :: combineLoop xs ys (some x) (some y) := rfl
    have hmax : max (x :: xs).length (y :: ys).length = max xs.length ys.length + 1 := by
      simp [List.length_cons]
      omega
    rw [hred, combineLoop_some xs ys x y, hmax, padWith_cons, padWith_cons,
      List.zip_cons_cons]
  | x :: xs, [], a, b => by
    have hred : combineLoop (x :: xs) ([] : List β) (some a) (some b)
        = (x :: xs).map (fun a2 => (a2, b)) := rfl
    have hmax : max (x :: xs).length ([] : List β).length = (x :: xs).length := by
      simp
    rw [hred, hmax, padWith_length_self, padWith_nil,
      zip_replicate_right_self b (x :: xs)]
  | [], y :: ys, a, b => by
    have hred : combineLoop ([] : List α) (y :: ys) (some a) (some b)
        = (y :: ys).map (fun b2 => (a, b2)) := rfl
    have hmax : max ([] : List α).length (y :: ys).length = (y :: ys).length := by
      simp
    rw [hred, hmax, padWith_length_self, padWith_nil,
      zip_replicate_left_self a (y :: ys)]

theorem combineLoop_right_nil {β : Type} :
    ∀ (xs : List α) (va : Option α), combineLoop xs ([] : List β) va none = []
  | [], _ => rfl
  | _ :: _, _ => rfl

theorem combineLoop_left_nil {β : Type} :
    ∀ (ys : List β) (vb : Option β), combineLoop ([] : List α) ys none vb = []
  | [], _ => rfl
  | _ :: _, _ => rfl

/-- C7 (amended): `combine` zips while both sources are active, but when one
source completes first it keeps pairing with that source's LAST value; the
combined stream completes only when ALL sources complete (emitting
`max(|A|,|B|)` tuples when both are nonempty), and emits nothing if any source
is empty.  The first `min(|A|,|B|)` tuples do pair the n-th values of the
sources. -/
theorem C7_combine {α β : Type} :
    (∀ (x : α) (y : β) (xs : List α) (ys : List β),
        combineModel (x :: xs) (y :: ys)
          = List.zip (padWith x (max xs.length ys.length + 1) (x :: xs))
              (padWith y (max xs.length ys.length + 1) (y :: ys)))
    ∧ (∀ (x : α) (y : β) (xs : List α) (ys : List β),
        (combineModel (x :: xs) (y :: ys)).length = max xs.length ys.length + 1)
    ∧ (∀ xs : List α, combineModel xs ([] : List β) = [])
    ∧ (∀ ys : List β, combineModel ([] : List α) ys = []) := by
  have key : ∀ (x : α) (y : β) (xs : List α) (ys : List β),
      combineModel (x :: xs) (y :: ys)
        = List.zip (padWith x (max xs.length ys.length + 1) (x :: xs))
            (padWith y (max xs.length ys.length + 1) (y :: ys)) := by
    intro x y xs ys
    have hred : combineModel (x :: xs) (y :: ys)
        = (x, y) :: combineLoop xs ys (some x) (some y) := rfl
    rw [hred, combineLoop_some, padWith_cons, padWith_cons, List.zip_cons_cons]
  refine ⟨key, ?_, fun xs => combineLoop_right_nil xs none,
    fun ys => combineLoop_left_nil ys none⟩
  intro x y xs ys
  rw [key, List.length_zip, padWith_length, padWith_length]
  all_goals simp [List.length_cons]

/-- C7 counterexample: `combine([1,2],[10,20,30])` keeps emitting after the
first source completes, pairing its stale last value: the output is
`[(1,10),(2,20),(2,30)]`, not the zip `[(1,10),(2,20)]` that "complete when
any source completes" would demand. -/
theorem C7_counterexample :
    combineModel [(1:Int), 2] [(10:Int), 20, 30] = [(1, 10), (2, 20), (2, 30)]
    ∧ combineModel [(1:Int), 2] [(10:Int), 20, 30] ≠ List.zip [(1:Int), 2] [(10:Int), 20, 30] := by
  decide

theorem sumGrants_nonneg : ∀ ops : List CreditOp, 0 ≤ sumGrants ops
  | [] => le_refl 0
  | .add n :: ops => by
    have := sumGrants_nonneg ops
    simp only [sumGrants]
    positivity
  | .consume n :: ops => sumGrants_nonneg ops

/-- C9 (amended): over any call sequence with nonnegative `initial` whose
grand total stays below the `Number.MAX_SAFE_INTEGER` saturation cap,
`Σ granted − Σ consumed = available − initial` and `available` never goes
negative.  (At the cap, `addCredits` saturates and conservation fails.) -/
theorem C9_credit_conservation (initial : Int) (ops : List CreditOp)
    (h0 : 0 ≤ initial) (hcap : initial + sumGrants ops ≤ MAX_SAFE_INTEGER) :
    (runCredits initial ops).2.1 = sumGrants ops
    ∧ (runCredits initial ops).1
        = initial + (runCredits initial ops).2.1 - (runCredits initial ops).2.2
    ∧ 0 ≤ (runCredits initial ops).1 := by
  induction ops generalizing initial with
  | nil => simp [runCredits, sumGrants, h0]
  | cons op ops ih =>
    cases op with
    | add n =>
      have hg := sumGrants_nonneg ops
      have hsum : sumGrants (CreditOp.add n :: ops) = n + sumGrants ops := rfl
      rw [hsum] at hcap
      have hadd : addCredits initial n = initial + n := by
        unfold addCredits
        rw [min_eq_left]
        omega
      have h0' : (0 : Int) ≤ initial + n := by positivity
      have hcap' : initial + n + sumGrants ops ≤ MAX_SAFE_INTEGER := by omega
      obtain ⟨ihg, ihc, ihp⟩ := ih (initial + n) h0' hcap'
      rcases hr : runCredits (initial + n) ops with ⟨c, g, u⟩
      rw [hr] at ihg ihc ihp
      simp only at ihg ihc ihp
      simp only [runCredits, hadd, hr, hsum]
      exact ⟨by omega, by omega, ihp⟩
    | consume n =>
      have hsum : sumGrants (CreditOp.consume n :: ops) = sumGrants ops := rfl
      rw [hsum] at hcap
      by_cases hok : (n : Int) ≤ initial
      · have hc1 : consumeCredit initial n = (initial - n, true) := by
          simp [consumeCredit, hok]
        have h0' : (0 : Int) ≤ initial - n := by omega
        have hcap' : initial - n + sumGrants ops ≤ MAX_SAFE_INTEGER := by omega
        obtain ⟨ihg, ihc, ihp⟩ := ih (initial - n) h0' hcap'
        rcases hr : runCredits (initial - n) ops with ⟨c, g, u⟩
        rw [hr] at ihg ihc ihp
        simp only at ihg ihc ihp
        simp only [runCredits, hc1, hr, hsum, if_true]
        exact ⟨by omega, by omega, ihp⟩
      · have hc1 : consumeCredit initial n = (initial, false) := by
          simp [consumeCredit, hok]
        obtain ⟨ihg, ihc, ihp⟩ := ih initial h0 hcap
        rcases hr : runCredits initial ops with ⟨c, g, u⟩
        rw [hr] at ihg ihc ihp
        simp only at ihg ihc ihp
        have hif : (if (false : Bool) = true then (n : Int) else 0) = 0 := by simp
        simp only [runCredits, hc1, hr, hsum, hif]
        exact ⟨by omega, by omega, ihp⟩

theorem C9_credit_conservation_witness :
    ((0 : Int) ≤ 10 ∧ (10 : Int) + sumGrants [CreditOp.add 5, CreditOp.consume 3]
        ≤ MAX_SAFE_INTEGER)
    ∧ ((runCredits 10 [CreditOp.add 5, CreditOp.consume 3]).2.1
        = sumGrants [CreditOp.add 5, CreditOp.consume 3]
      ∧ (runCredits 10 [CreditOp.add 5, CreditOp.consume 3]).1
          = 10 + (runCredits 10 [CreditOp.add 5, CreditOp.consume 3]).2.1
            - (runCredits 10 [CreditOp.add 5, CreditOp.consume 3]).2.2
      ∧ 0 ≤ (runCredits 10 [CreditOp.add 5, CreditOp.consume 3]).1) :=
  ⟨⟨by decide, by decide⟩,
    C9_credit_conservation 10 [CreditOp.add 5, CreditOp.consume 3] (by decide) (by decide)⟩

/-- C9 counterexample: starting at the saturation cap, one `addCredits(1)`
grants 1 but leaves `available` unchanged, so
`Σ granted − Σ consumed = 1 ≠ 0 = available − initial`. -/
theorem C9_counterexample :
    (runCredits MAX_SAFE_INTEGER [CreditOp.add 1]).1 - MAX_SAFE_INTEGER = 0
    ∧ (runCredits MAX_SAFE_INTEGER [CreditOp.add 1]).2.1
        - (runCredits MAX_SAFE_INTEGER [CreditOp.add 1]).2.2 = 1 := by
  decide

theorem mem_domMax {q : ℚ × Nat} : ∀ {l : List (ℚ × Nat)}, q ∈ domMax l → q ∈ l := by
  intro l
  induction l with
  | nil => intro h; exact absurd h (by simp [domMax])
  | cons a rest ih =>
    intro h
    by_cases ha : rest.all (fun r => r.1 < a.1)
    · rw [domMax, if_pos ha] at h
      rcases List.mem_cons.mp h with h | h
      · exact h ▸ List.mem_cons_self a rest
      · exact List.mem_cons_of_mem a (ih h)
    · rw [domMax, if_neg ha] at h
      exact List.mem_cons_of_mem a (ih h)

theorem mem_domMin {q : ℚ × Nat} : ∀ {l : List (ℚ × Nat)}, q ∈ domMin l → q ∈ l := by
  intro l
  induction l with
  | nil => intro h; exact absurd h (by simp [domMin])
  | cons a rest ih =>
    intro h
    by_cases ha : rest.all (fun r => a.1 < r.1)
    · rw [domMin, if_pos ha] at h
      rcases List.mem_cons.mp h with h | h
      · exact h ▸ List.mem_cons_self a rest
      · exact List.mem_cons_of_mem a (ih h)
    · rw [domMin, if_neg ha] at h
      exact List.mem_cons_of_mem a (ih h)

theorem popBackWhileLe_nil_of_all {v : ℚ} :
    ∀ {l : List (ℚ × Nat)}, (∀ q ∈ l, q.1 ≤ v) → popBackWhileLe v l = [] := by
  intro l
  induction l with
  | nil => intro _; rfl
  | cons a rest ih =>
    intro h
    rw [popBackWhileLe, ih (fun q hq => h q (List.mem_cons_of_mem a hq))]
    exact if_pos (h a (List.mem_cons_self a rest))

theorem popBackWhileGe_nil_of_all {v : ℚ} :
    ∀ {l : List (ℚ × Nat)}, (∀ q ∈ l, v ≤ q.1) → popBackWhileGe v l = [] := by
  intro l
  induction l with
  | nil => intro _; rfl
  | cons a rest ih =>
    intro h
    rw [popBackWhileGe, ih (fun q hq => h q (List.mem_cons_of_mem a hq))]
    exact if_pos (h a (List.mem_cons_self a rest))

/-- Pushing a new pair onto the max-deque keeps it equal to the dominant
subsequence of the extended window. -/
theorem domMax_append_single (v : ℚ) (i : Nat) :
    ∀ l : List (ℚ × Nat),
      domMax (l ++ [(v, i)]) = popBackWhileLe v (domMax l) ++ [(v, i)] := by
  intro l
  induction l with
  | nil => simp [domMax, popBackWhileLe]
  | cons a rest ih =>
    by_cases ha : rest.all (fun r => r.1 < a.1)
    · by_cases hv : v < a.1
      · have hall : (rest ++ [(v, i)]).all (fun r => r.1 < a.1) = true := by
          rw [List.all_append, Bool.and_eq_true]
          refine ⟨ha, ?_⟩
          simp [hv]
        rw [List.cons_append, domMax, if_pos hall, ih, domMax, if_pos ha]
        have hnotle : ¬ a.1 ≤ v := not_le.mpr hv
        cases hpb : popBackWhileLe v (domMax rest) with
        | nil => simp [popBackWhileLe, hpb, hnotle]
        | cons r rs => simp [popBackWhileLe, hpb]
      · have hle : a.1 ≤ v := not_lt.mp hv
        have hnall : ¬ ((rest ++ [(v, i)]).all (fun r => r.1 < a.1) = true) := by
          rw [List.all_append]
          simp only [List.all_cons, List.all_nil, Bool.and_true, Bool.and_eq_true]
          intro hcon
          exact absurd (by simpa using hcon.2) (not_lt.mpr hle)
        rw [List.cons_append, domMax, if_neg hnall, ih, domMax, if_pos ha]
        have hallle : ∀ q ∈ a :: domMax rest, q.1 ≤ v := by
          intro q hq
          rcases List.mem_cons.mp hq with h | h
          · exact h ▸ hle
          · have hmem := mem_domMax h
            have := List.all_eq_true.mp ha q hmem
            exact le_of_lt (lt_of_lt_of_le (by simpa using this) hle)
        rw [popBackWhileLe_nil_of_all hallle,
          popBackWhileLe_nil_of_all (fun q hq => hallle q (List.mem_cons_of_mem a hq))]
    · have hnall : ¬ ((rest ++ [(v, i)]).all (fun r => r.1 < a.1) = true) := by
        rw [List.all_append]
        simp only [Bool.and_eq_true]
        intro hcon
        exact ha hcon.1
      rw [List.cons_append, domMax, if_neg hnall, ih, domMax, if_neg ha]

/-- Pushing a new pair onto the min-deque keeps it equal to the dominant
subsequence of the extended window. -/
theorem domMin_append_single (v : ℚ) (i : Nat) :
    ∀ l : List (ℚ × Nat),
      domMin (l ++ [(v, i)]) = popBackWhileGe v (domMin l) ++ [(v, i)] := by
  intro l
  induction l with
  | nil => simp [domMin, popBackWhileGe]
  | cons a rest ih =>
    by_cases ha : rest.all (fun r => a.1 < r.1)
    · by_cases hv : a.1 < v
      · have hall : (rest ++ [(v, i)]).all (fun r => a.1 < r.1) = true := by
          rw [List.all_append, Bool.and_eq_true]
          refine ⟨ha, ?_⟩
          simp [hv]
        rw [List.cons_append, domMin, if_pos hall, ih, domMin, if_pos ha]
        have hnotle : ¬ v ≤ a.1 := not_le.mpr hv
        cases hpb : popBackWhileGe v (domMin rest) with
        | nil => simp [popBackWhileGe, hpb, hnotle]
        | cons r rs => simp [popBackWhileGe, hpb]
      · have hle : v ≤ a.1 := not_lt.mp hv
        have hnall : ¬ ((rest ++ [(v, i)]).all (fun r => a.1 < r.1) = true) := by
          rw [List.all_append]
          simp only [List.all_cons, List.all_nil, Bool.and_true, Bool.and_eq_true]
          intro hcon
          exact absurd (by simpa using hcon.2) (not_lt.mpr hle)
        rw [List.cons_append, domMin, if_neg hnall, ih, domMin, if_pos ha]
        have hallle : ∀ q ∈ a :: domMin rest, v ≤ q.1 := by
          intro q hq
          rcases List.mem_cons.mp hq with h | h
          · exact h ▸ hle
          · have hmem := mem_domMin h
            have := List.all_eq_true.mp ha q hmem
            exact le_of_lt (lt_of_le_of_lt hle (by simpa using this))
        rw [popBackWhileGe_nil_of_all hallle,
          popBackWhileGe_nil_of_all (fun q hq => hallle q (List.mem_cons_of_mem a hq))]
    · have hnall : ¬ ((rest ++ [(v, i)]).all (fun r => a.1 < r.1) = true) := by
        rw [List.all_append]
        simp only [Bool.and_eq_true]
        intro hcon
        exact ha hcon.1
      rw [List.cons_append, domMin, if_neg hnall, ih, domMin, if_neg ha]

theorem evictOldAux_id_of_ge {t : Int} :
    ∀ {l : List (ℚ × Nat)}, (∀ q ∈ l, t ≤ (q.2 : Int)) → evictOldAux t l = l := by
  intro l
  cases l with
  | nil => intro _; rfl
  | cons a rest =>
    intro h
    have hE : evictOldAux t (a :: rest)
        = if (a.2 : Int) < t then evictOldAux t rest else a :: rest := rfl
    rw [hE, if_neg (not_lt.mpr (h a (List.mem_cons_self a rest)))]

/-- Front eviction commutes with taking dominants, on index-sorted windows. -/
theorem evictOldAux_domMax (t : Int) :
    ∀ l : List (ℚ × Nat), l.Pairwise (fun p q2 => p.2 < q2.2) →
      evictOldAux t (domMax l) = domMax (evictOldAux t l)
  | [], _ => rfl
  | a :: rest, hp => by
    obtain ⟨hrel, hp2⟩ := List.pairwise_cons.mp hp
    have hE : evictOldAux t (a :: rest)
        = if (a.2 : Int) < t then evictOldAux t rest else a :: rest := rfl
    have hD : domMax (a :: rest)
        = if rest.all (fun r => r.1 < a.1) then a :: domMax rest else domMax rest := rfl
    by_cases hlt : (a.2 : Int) < t
    · rw [hE, if_pos hlt, hD]
      by_cases ha : rest.all (fun r => r.1 < a.1)
      · rw [if_pos ha]
        have hL : evictOldAux t (a :: domMax rest) = evictOldAux t (domMax rest) := by
          have : evictOldAux t (a :: domMax rest)
              = if (a.2 : Int) < t then evictOldAux t (domMax rest)
                else a :: domMax rest := rfl
          rw [this, if_pos hlt]
        rw [hL]
        exact evictOldAux_domMax t rest hp2
      · rw [if_neg ha]
        exact evictOldAux_domMax t rest hp2
    · rw [hE, if_neg hlt, hD]
      by_cases ha : rest.all (fun r => r.1 < a.1)
      · rw [if_pos ha]
        have : evictOldAux t (a :: domMax rest)
            = if (a.2 : Int) < t then evictOldAux t (domMax rest)
              else a :: domMax rest := rfl
        rw [this, if_neg hlt]
      · rw [if_neg ha]
        apply evictOldAux_id_of_ge
        intro q hq
        have h1 := hrel q (mem_domMax hq)
        omega

theorem evictOldAux_domMin (t : Int) :
    ∀ l : List (ℚ × Nat), l.Pairwise (fun p q2 => p.2 < q2.2) →
      evictOldAux t (domMin l) = domMin (evictOldAux t l)
  | [], _ => rfl
  | a :: rest, hp => by
    obtain ⟨hrel, hp2⟩ := List.pairwise_cons.mp hp
    have hE : evictOldAux t (a :: rest)
        = if (a.2 : Int) < t then evictOldAux t rest else a :: rest := rfl
    have hD : domMin (a :: rest)
        = if rest.all (fun r => a.1 < r.1) then a :: domMin rest else domMin rest := rfl
    by_cases hlt : (a.2 : Int) < t
    · rw [hE, if_pos hlt, hD]
      by_cases ha : rest.all (fun r => a.1 < r.1)
      · rw [if_pos ha]
        have hL : evictOldAux t (a :: domMin rest) = evictOldAux t (domMin rest) := by
          have : evictOldAux t (a :: domMin rest)
              = if (a.2 : Int) < t then evictOldAux t (domMin rest)
                else a :: domMin rest := rfl
          rw [this, if_pos hlt]
        rw [hL]
        exact evictOldAux_domMin t rest hp2
      · rw [if_neg ha]
        exact evictOldAux_domMin t rest hp2
    · rw [hE, if_neg hlt, hD]
      by_cases ha : rest.all (fun r => a.1 < r.1)
      · rw [if_pos ha]
        have : evictOldAux t (a :: domMin rest)
            = if (a.2 : Int) < t then evictOldAux t (domMin rest)
              else a :: domMin rest := rfl
        rw [this, if_neg hlt]
      · rw [if_neg ha]
        apply evictOldAux_id_of_ge
        intro q hq
        have h1 := hrel q (mem_domMin hq)
        omega

/-- The front of the max-deque is a member of the window and an upper bound of
all window values. -/
theorem domMax_head_spec :
    ∀ l : List (ℚ × Nat), l ≠ [] →
      domMax l ≠ [] ∧ (domMax l).headD (0, 0) ∈ l
        ∧ ∀ q ∈ l, q.1 ≤ ((domMax l).headD (0, 0)).1
  | [], h => absurd rfl h
  | a :: rest, _ => by
    have hD : domMax (a :: rest)
        = if rest.all (fun r => r.1 < a.1) then a :: domMax rest else domMax rest := rfl
    by_cases ha : rest.all (fun r => r.1 < a.1)
    · rw [hD, if_pos ha]
      refine ⟨by simp, by simp, ?_⟩
      intro q hq
      rcases List.mem_cons.mp hq with h | h
      · simp [h]
      · have := List.all_eq_true.mp ha q h
        simp only [List.headD_cons]
        exact le_of_lt (by simpa using this)
    · rw [hD, if_neg ha]
      have hrest : rest ≠ [] := by
        intro hcon
        subst hcon
        exact ha (by simp)
      obtain ⟨h1, h2, h3⟩ := domMax_head_spec rest hrest
      refine ⟨h1, List.mem_cons_of_mem a h2, ?_⟩
      intro q hq
      rcases List.mem_cons.mp hq with h | h
      · subst h
        simp only [List.all_eq_true] at ha
        push_neg at ha
        obtain ⟨r, hr, hnlt⟩ := ha
        have har : q.1 ≤ r.1 := not_lt.mp (by simpa using hnlt)
        exact le_trans har (h3 r hr)
      · exact h3 q h

/-- The front of the min-deque is a member of the window and a lower bound of
all window values. -/
theorem domMin_head_spec :
    ∀ l : List (ℚ × Nat), l ≠ [] →
      domMin l ≠ [] ∧ (domMin l).headD (0, 0) ∈ l
        ∧ ∀ q ∈ l, ((domMin l).headD (0, 0)).1 ≤ q.1
  | [], h => absurd rfl h
  | a :: rest, _ => by
    have hD : domMin (a :: rest)
        = if rest.all (fun r => a.1 < r.1) then a :: domMin rest else domMin rest := rfl
    by_cases ha : rest.all (fun r => a.1 < r.1)
    · rw [hD, if_pos ha]
      refine ⟨by simp, by simp, ?_⟩
      intro q hq
      rcases List.mem_cons.mp hq with h | h
      · simp [h]
      · have := List.all_eq_true.mp ha q h
        simp only [List.headD_cons]
        exact le_of_lt (by simpa using this)
    · rw [hD, if_neg ha]
      have hrest : rest ≠ [] := by
        intro hcon
        subst hcon
        exact ha (by simp)
      obtain ⟨h1, h2, h3⟩ := domMin_head_spec rest hrest
      refine ⟨h1, List.mem_cons_of_mem a h2, ?_⟩
      intro q hq
      rcases List.mem_cons.mp hq with h | h
      · subst h
        simp only [List.all_eq_true] at ha
        push_neg at ha
        obtain ⟨r, hr, hnlt⟩ := ha
        have har : r.1 ≤ q.1 := not_lt.mp (by simpa using hnlt)
        exact le_trans (h3 r hr) har
      · exact h3 q h

theorem foldl_max_spec : ∀ (l : List ℚ) (x : ℚ),
    x ≤ l.foldl max x ∧ (∀ y ∈ l, y ≤ l.foldl max x)
      ∧ (l.foldl max x = x ∨ l.foldl max x ∈ l)
  | [], x => ⟨le_refl x, by simp, Or.inl rfl⟩
  | y :: l, x => by
    obtain ⟨h1, h2, h3⟩ := foldl_max_spec l (max x y)
    rw [List.foldl_cons]
    refine ⟨le_trans (le_max_left x y) h1, ?_, ?_⟩
    · intro z hz
      rcases List.mem_cons.mp hz with h | h
      · rw [h]
        exact le_trans (le_max_right x y) h1
      · exact h2 z h
    · rcases h3 with h | h
      · rcases max_cases x y with ⟨he, _⟩ | ⟨he, _⟩
        · exact Or.inl (by rw [h, he])
        · refine Or.inr ?_
          rw [h, he]
          exact List.mem_cons_self y l
      · exact Or.inr (List.mem_cons_of_mem y h)

theorem foldl_min_spec : ∀ (l : List ℚ) (x : ℚ),
    l.foldl min x ≤ x ∧ (∀ y ∈ l, l.foldl min x ≤ y)
      ∧ (l.foldl min x = x ∨ l.foldl min x ∈ l)
  | [], x => ⟨le_refl x, by simp, Or.inl rfl⟩
  | y :: l, x => by
    obtain ⟨h1, h2, h3⟩ := foldl_min_spec l (min x y)
    rw [List.foldl_cons]
    refine ⟨le_trans h1 (min_le_left x y), ?_, ?_⟩
    · intro z hz
      rcases List.mem_cons.mp hz with h | h
      · rw [h]
        exact le_trans h1 (min_le_right x y)
      · exact h2 z h
    · rcases h3 with h | h
      · rcases min_cases x y with ⟨he, _⟩ | ⟨he, _⟩
        · exact Or.inl (by rw [h, he])
        · refine Or.inr ?_
          rw [h, he]
          exact List.mem_cons_self y l
      · exact Or.inr (List.mem_cons_of_mem y h)

theorem maxOf_eq_of {w : List ℚ} {m : ℚ} (hmem : m ∈ w) (hub : ∀ y ∈ w, y ≤ m) :
    maxOf w = m := by
  cases w with
  | nil => exact absurd hmem (by simp)
  | cons x l =>
    obtain ⟨h1, h2, h3⟩ := foldl_max_spec l x
    show l.foldl max x = m
    apply le_antisymm
    · rcases h3 with h | h
      · rw [h]
        exact hub x (List.mem_cons_self x l)
      · exact hub _ (List.mem_cons_of_mem x h)
    · rcases List.mem_cons.mp hmem with h | h
      · exact h ▸ h1
      · exact h2 m h

theorem minOf_eq_of {w : List ℚ} {m : ℚ} (hmem : m ∈ w) (hlb : ∀ y ∈ w, m ≤ y) :
    minOf w = m := by
  cases w with
  | nil => exact absurd hmem (by simp)
  | cons x l =>
    obtain ⟨h1, h2, h3⟩ := foldl_min_spec l x
    show l.foldl min x = m
    apply le_antisymm
    · rcases List.mem_cons.mp hmem with h | h
      · exact h ▸ h1
      · exact h2 m h
    · rcases h3 with h | h
      · rw [h]
        exact hlb x (List.mem_cons_self x l)
      · exact hlb _ (List.mem_cons_of_mem x h)

theorem map_getD_range : ∀ w : List ℚ, (List.range w.length).map (fun j => w.getD j 0) = w
  | [] => rfl
  | x :: l => by
    rw [List.length_cons, List.range_succ_eq_map, List.map_cons, List.map_map]
    show x :: (List.range l.length).map (fun j => l.getD j 0) = x :: l
    rw [map_getD_range l]

theorem idxWindow_map_fst (w : List ℚ) (off : Nat) :
    (idxWindow w off).map Prod.fst = w := by
  unfold idxWindow
  rw [List.map_map]
  show (List.range w.length).map (fun j => w.getD j 0) = w
  exact map_getD_range w

theorem idxWindow_length (w : List ℚ) (off : Nat) :
    (idxWindow w off).length = w.length := by
  simp [idxWindow]

theorem idxWindow_index_ge (w : List ℚ) (off : Nat) :
    ∀ q ∈ idxWindow w off, off ≤ q.2 := by
  intro q hq
  obtain ⟨j, _, hj2⟩ := List.mem_map.mp hq
  rw [← hj2]
  exact Nat.le_add_right off j

theorem idxWindow_pairwise (w : List ℚ) (off : Nat) :
    (idxWindow w off).Pairwise (fun p q => p.2 < q.2) := by
  unfold idxWindow
  rw [List.pairwise_map]
  exact (List.pairwise_lt_range w.length).imp (fun h => by omega)

theorem idxWindow_snoc (w : List ℚ) (off : Nat) (x : ℚ) :
    idxWindow (w ++ [x]) off = idxWindow w off ++ [(x, off + w.length)] := by
  unfold idxWindow
  rw [List.length_append, List.length_singleton, List.range_succ, List.map_append]
  congr 1
  · apply List.map_congr_left
    intro j hj
    have hjlt : j < w.length := List.mem_range.mp hj
    rw [List.getD_append _ _ _ _ hjlt]
  · rw [List.map_singleton]
    have : (w ++ [x]).getD w.length 0 = x := by
      rw [List.getD_append_right _ _ _ _ (le_refl w.length), Nat.sub_self]
      rfl
    rw [this]

theorem idxWindow_cons_shift (h : ℚ) (tl : List ℚ) (off : Nat) :
    idxWindow (h :: tl) off = (h, off) :: idxWindow tl (off + 1) := by
  unfold idxWindow
  rw [List.length_cons, List.range_succ_eq_map, List.map_cons, List.map_map]
  congr 1
  apply List.map_congr_left
  intro j _
  show ((h :: tl).getD (j + 1) 0, off + (j + 1)) = (tl.getD j 0, off + 1 + j)
  simp only [Prod.mk.injEq]
  exact ⟨rfl, by omega⟩

/-- The front value of the max-deque over a nonempty window is the window
maximum. -/
theorem domMax_head_val (w : List ℚ) (off : Nat) (hw : w ≠ []) :
    ((domMax (idxWindow w off)).headD (0, 0)).1 = maxOf w := by
  have hne : idxWindow w off ≠ [] := by
    intro hcon
    have := congrArg List.length hcon
    rw [idxWindow_length] at this
    exact hw (List.length_eq_zero.mp this)
  obtain ⟨_, h2, h3⟩ := domMax_head_spec (idxWindow w off) hne
  refine (maxOf_eq_of ?_ ?_).symm
  · have hmem := List.mem_map_of_mem Prod.fst h2
    rw [idxWindow_map_fst] at hmem
    exact hmem
  · intro y hy
    have hy2 : y ∈ (idxWindow w off).map Prod.fst := by
      rw [idxWindow_map_fst]
      exact hy
    obtain ⟨q, hq, hq2⟩ := List.mem_map.mp hy2
    exact hq2 ▸ h3 q hq

/-- The front value of the min-deque over a nonempty window is the window
minimum. -/
theorem domMin_head_val (w : List ℚ) (off : Nat) (hw : w ≠ []) :
    ((domMin (idxWindow w off)).headD (0, 0)).1 = minOf w := by
  have hne : idxWindow w off ≠ [] := by
    intro hcon
    have := congrArg List.length hcon
    rw [idxWindow_length] at this
    exact hw (List.length_eq_zero.mp this)
  obtain ⟨_, h2, h3⟩ := domMin_head_spec (idxWindow w off) hne
  refine (minOf_eq_of ?_ ?_).symm
  · have hmem := List.mem_map_of_mem Prod.fst h2
    rw [idxWindow_map_fst] at hmem
    exact hmem
  · intro y hy
    have hy2 : y ∈ (idxWindow w off).map Prod.fst := by
      rw [idxWindow_map_fst]
      exact hy
    obtain ⟨q, hq, hq2⟩ := List.mem_map.mp hy2
    exact hq2 ▸ h3 q hq

theorem getD_set_self_q (l : List ℚ) (i : Nat) (a : ℚ) (h : i < l.length) :
    (l.set i a).getD i 0 = a := by
  rw [List.getD_eq_getElem?_getD, List.getElem?_set_self (by simpa using h)]
  rfl

theorem getD_set_ne_q (l : List ℚ) (i j : Nat) (a : ℚ) (h : i ≠ j) :
    (l.set i a).getD j 0 = l.getD j 0 := by
  rw [List.getD_eq_getElem?_getD, List.getElem?_set_ne h, ← List.getD_eq_getElem?_getD]

theorem mod_shift_ne {W start b : Nat} (hs : start < W) (hb1 : 0 < b) (hb2 : b < W) :
    (start + b) % W ≠ start := by
  intro h
  rcases Nat.lt_or_ge (start + b) W with hlt | hge
  · rw [Nat.mod_eq_of_lt hlt] at h
    omega
  · have h2 : start + b - W < W := by omega
    have h3 : (start + b) % W = start + b - W := by
      rw [Nat.mod_eq_sub_mod hge, Nat.mod_eq_of_lt h2]
    omega

theorem winInit_inv (W : Nat) : WinInv W [] (winInit W) := by
  refine ⟨rfl, by simp [winInit], by simp [winInit], by simp [winInit], ?_, ?_, ?_, ?_⟩
  · intro j hj
    simp [winInit] at hj
  · simp [winInit]
  · simp [winInit, idxWindow, domMax]
  · simp [winInit, idxWindow, domMin]

theorem evictOldAux_cons_window (t : Int) (a : ℚ × Nat) (l : List (ℚ × Nat))
    (ha : (a.2 : Int) < t) (hl : ∀ q ∈ l, t ≤ (q.2 : Int)) :
    evictOldAux t (a :: l) = l := by
  have hE : evictOldAux t (a :: l)
      = if (a.2 : Int) < t then evictOldAux t l else a :: l := rfl
  rw [hE, if_pos ha]
  exact evictOldAux_id_of_ge hl

/-- One generator step preserves the machine invariant, and emits exactly the
aggregate of the latest window once `W` items have arrived. -/
theorem winStep_inv {W : Nat} (hW : 0 < W) (op : AggOp) {p : List ℚ} {s : WinState}
    (hinv : WinInv W p s) (x : ℚ) :
    WinInv W (p ++ [x]) (winStep W op s x).1 ∧
      (winStep W op s x).2 =
        (if W ≤ p.length + 1
          then some (aggSpec W op ((p ++ [x]).drop (p.length + 1 - W))) else none) := by
  obtain ⟨hindex, hcount, hbuflen, hstart, hbuf, hsum, hmax, hmin⟩ := hinv
  have hsW : s.start < W := by rw [hstart]; exact Nat.mod_lt _ hW
  have hlen1 : (p ++ [x]).length = p.length + 1 := by
    rw [List.length_append, List.length_singleton]
  by_cases hnW : p.length < W
  · -- Case A: the buffer is still filling, the window grows by one.
    have hcn : s.count = p.length := by rw [hcount]; exact Nat.min_eq_left (le_of_lt hnW)
    have hcA : s.count < W := by omega
    have hdp : p.length - s.count = 0 := by omega
    have hs0 : s.start = 0 := by rw [hstart, hdp, Nat.zero_mod]
    have harg : (p ++ [x]).length - (s.count + 1) = 0 := by rw [hlen1]; omega
    simp only [hdp, List.drop_zero] at hbuf hsum hmax hmin
    have hsnoc : idxWindow (p ++ [x]) 0 = idxWindow p 0 ++ [(x, s.index)] := by
      rw [idxWindow_snoc, Nat.zero_add, hindex]
    have hmaxA : evictOldAux ((s.index : Int) - W + 1) (pushMax x s.index s.dqMax)
        = domMax (idxWindow (p ++ [x]) 0) := by
      have hpm : pushMax x s.index s.dqMax
          = domMax (idxWindow p 0 ++ [(x, s.index)]) := by
        show popBackWhileLe x s.dqMax ++ [(x, s.index)] = _
        rw [hmax, ← domMax_append_single]
      rw [hpm, ← hsnoc]
      apply evictOldAux_id_of_ge
      intro q _
      omega
    have hminA : evictOldAux ((s.index : Int) - W + 1) (pushMin x s.index s.dqMin)
        = domMin (idxWindow (p ++ [x]) 0) := by
      have hpm : pushMin x s.index s.dqMin
          = domMin (idxWindow p 0 ++ [(x, s.index)]) := by
        show popBackWhileGe x s.dqMin ++ [(x, s.index)] = _
        rw [hmin, ← domMin_append_single]
      rw [hpm, ← hsnoc]
      apply evictOldAux_id_of_ge
      intro q _
      omega
    have hsumA : s.sum + x = (p ++ [x]).sum := by
      rw [List.sum_append, hsum]
      simp
    have hidx : (s.start + s.count) % W = s.count := by
      rw [hs0, Nat.zero_add]; exact Nat.mod_eq_of_lt hcA
    have h1 : s.index + 1 = (p ++ [x]).length := by rw [hlen1]; omega
    have h2 : s.count + 1 = min (p ++ [x]).length W := by
      rw [hlen1, Nat.min_eq_left (by omega : p.length + 1 ≤ W)]
      omega
    have h3 : (s.buf.set ((s.start + s.count) % W) x).length = W := by
      rw [List.length_set]; exact hbuflen
    have h4 : s.start = ((p ++ [x]).length - (s.count + 1)) % W := by
      rw [harg, Nat.zero_mod]; exact hs0
    have h5 : ∀ j, j < s.count + 1 →
        (s.buf.set ((s.start + s.count) % W) x).getD ((s.start + j) % W) 0
          = ((p ++ [x]).drop ((p ++ [x]).length - (s.count + 1))).getD j 0 := by
      intro j hj
      rw [harg, List.drop_zero, hidx]
      rcases Nat.lt_or_ge j s.count with hjlt | hjge
      · have hjW : j < W := by omega
        have hpos : (s.start + j) % W = j := by
          rw [hs0, Nat.zero_add]; exact Nat.mod_eq_of_lt hjW
        rw [hpos, getD_set_ne_q s.buf s.count j x (by omega)]
        have hold := hbuf j hjlt
        rw [hpos] at hold
        rw [hold]
        exact (List.getD_append _ _ _ _ (by omega : j < p.length)).symm
      · have hjeq : j = s.count := by omega
        rw [hjeq, hidx, getD_set_self_q s.buf s.count x (by rw [hbuflen]; omega)]
        rw [List.getD_append_right _ _ _ _ (by omega : p.length ≤ s.count)]
        have hz : s.count - p.length = 0 := by omega
        rw [hz]
        rfl
    have h6 : s.sum + x = ((p ++ [x]).drop ((p ++ [x]).length - (s.count + 1))).sum := by
      rw [harg, List.drop_zero]
      exact hsumA
    have h7 : evictOldAux ((s.index : Int) - W + 1) (pushMax x s.index s.dqMax)
        = domMax (idxWindow ((p ++ [x]).drop ((p ++ [x]).length - (s.count + 1)))
            ((p ++ [x]).length - (s.count + 1))) := by
      rw [harg, List.drop_zero]
      exact hmaxA
    have h8 : evictOldAux ((s.index : Int) - W + 1) (pushMin x s.index s.dqMin)
        = domMin (idxWindow ((p ++ [x]).drop ((p ++ [x]).length - (s.count + 1)))
            ((p ++ [x]).length - (s.count + 1))) := by
      rw [harg, List.drop_zero]
      exact hminA
    have hfst : (winStep W op s x).1
        = ⟨s.buf.set ((s.start + s.count) % W) x, s.start, s.count + 1, s.sum + x,
            evictOldAux ((s.index : Int) - W + 1) (pushMax x s.index s.dqMax),
            evictOldAux ((s.index : Int) - W + 1) (pushMin x s.index s.dqMin),
            s.index + 1⟩ := by
      unfold winStep
      simp only [if_pos hcA]
      by_cases hf : s.count + 1 = W
      · rw [if_pos hf]
      · rw [if_neg hf]
    have hsnd : (winStep W op s x).2
        = (if s.count + 1 = W then
            some (winEmit W op (s.sum + x)
              (evictOldAux ((s.index : Int) - W + 1) (pushMax x s.index s.dqMax))
              (evictOldAux ((s.index : Int) - W + 1) (pushMin x s.index s.dqMin)))
          else none) := by
      unfold winStep
      simp only [if_pos hcA]
      by_cases hf : s.count + 1 = W
      · rw [if_pos hf, if_pos hf]
      · rw [if_neg hf, if_neg hf]
    refine ⟨?_, ?_⟩
    · rw [hfst]
      exact ⟨h1, h2, h3, h4, h5, h6, h7, h8⟩
    · rw [hsnd]
      by_cases hf : s.count + 1 = W
      · rw [if_pos hf, if_pos (by omega : W ≤ p.length + 1)]
        have hz : p.length + 1 - W = 0 := by omega
        rw [hz, List.drop_zero]
        cases op
        · show some (s.sum + x) = some (aggSpec W AggOp.sum (p ++ [x]))
          rw [hsumA]
          rfl
        · show some ((s.sum + x) / (W : ℚ)) = some (aggSpec W AggOp.mean (p ++ [x]))
          rw [hsumA]
          rfl
        · show some ((evictOldAux ((s.index : Int) - W + 1)
              (pushMin x s.index s.dqMin)).headD (0, 0)).1
            = some (aggSpec W AggOp.min (p ++ [x]))
          rw [hminA, domMin_head_val (p ++ [x]) 0 (by simp)]
          rfl
        · show some ((evictOldAux ((s.index : Int) - W + 1)
              (pushMax x s.index s.dqMax)).headD (0, 0)).1
            = some (aggSpec W AggOp.max (p ++ [x]))
          rw [hmaxA, domMax_head_val (p ++ [x]) 0 (by simp)]
          rfl
      · rw [if_neg hf, if_neg (by omega : ¬ W ≤ p.length + 1)]
  · -- Case B: the buffer is full, the window slides by one.
    have hWn : W ≤ p.length := Nat.not_lt.mp hnW
    have hcW : s.count = W := by rw [hcount]; exact Nat.min_eq_right hWn
    have hcB : ¬ s.count < W := by omega
    simp only [hcW] at hbuf hsum hmax hmin hstart
    have hwlen : (p.drop (p.length - W)).length = W := by rw [List.length_drop]; omega
    have hwne : p.drop (p.length - W) ≠ [] := by
      intro hcon
      have hcl := congrArg List.length hcon
      rw [hwlen] at hcl
      simp at hcl
      omega
    obtain ⟨hd, tl, hht⟩ := List.exists_cons_of_ne_nil hwne
    have htl : tl.length = W - 1 := by
      have hcl := hwlen
      rw [hht, List.length_cons] at hcl
      omega
    have harg2 : (p ++ [x]).length - s.count = p.length - W + 1 := by
      rw [hlen1, hcW]
      omega
    have hw' : (p ++ [x]).drop (p.length - W + 1) = tl ++ [x] := by
      rw [List.drop_append_of_le_length (by omega : p.length - W + 1 ≤ p.length)]
      rw [← List.drop_drop, hht]
      rfl
    have hposmod : ∀ j : Nat, ((s.start + 1) % W + j) % W = (s.start + (1 + j)) % W := by
      intro j
      rw [Nat.mod_add_mod, Nat.add_assoc]
    have hbufB : ∀ j, j < s.count →
        (s.buf.set s.start x).getD (((s.start + 1) % W + j) % W) 0
          = ((p ++ [x]).drop ((p ++ [x]).length - s.count)).getD j 0 := by
      intro j hj
      have hjW : j < W := by omega
      rw [harg2, hw', hposmod j]
      rcases Nat.lt_or_ge j (W - 1) with hjlt | hjge
      · have hne : (s.start + (1 + j)) % W ≠ s.start :=
          mod_shift_ne hsW (by omega) (by omega)
        rw [getD_set_ne_q s.buf s.start ((s.start + (1 + j)) % W) x (Ne.symm hne)]
        have hold := hbuf (1 + j) (by omega)
        rw [hold, hht]
        have h1j : 1 + j = j + 1 := Nat.add_comm 1 j
        rw [h1j, List.getD_cons_succ]
        exact (List.getD_append _ _ _ _ (by omega : j < tl.length)).symm
      · have hposW : (s.start + (1 + j)) % W = s.start := by
          have he : 1 + j = W := by omega
          rw [he, Nat.add_mod_right]
          exact Nat.mod_eq_of_lt hsW
        rw [hposW, getD_set_self_q s.buf s.start x (by rw [hbuflen]; exact hsW)]
        rw [List.getD_append_right _ _ _ _ (by omega : tl.length ≤ j)]
        have hz : j - tl.length = 0 := by omega
        rw [hz]
        rfl
    have holdest := hbuf 0 (by omega)
    have hpos0 : (s.start + 0) % W = s.start := by
      rw [Nat.add_zero]; exact Nat.mod_eq_of_lt hsW
    rw [hpos0, hht, List.getD_cons_zero] at holdest
    have hsumB : s.sum + x - s.buf.getD s.start 0 = (tl ++ [x]).sum := by
      rw [holdest, List.sum_append]
      have hs2 := hsum
      rw [hht, List.sum_cons] at hs2
      rw [hs2]
      have hx : ([x] : List ℚ).sum = x := by simp
      rw [hx]
      ring
    have hsnocB : idxWindow (p.drop (p.length - W) ++ [x]) (p.length - W)
        = idxWindow (p.drop (p.length - W)) (p.length - W) ++ [(x, s.index)] := by
      rw [idxWindow_snoc, hwlen]
      have he : p.length - W + W = s.index := by omega
      rw [he]
    have hpw := idxWindow_pairwise (p.drop (p.length - W) ++ [x]) (p.length - W)
    have hmaxB : evictOldAux ((s.index : Int) - W + 1) (pushMax x s.index s.dqMax)
        = domMax (idxWindow (tl ++ [x]) (p.length - W + 1)) := by
      have hpm : pushMax x s.index s.dqMax
          = domMax (idxWindow (p.drop (p.length - W)) (p.length - W) ++ [(x, s.index)]) := by
        show popBackWhileLe x s.dqMax ++ [(x, s.index)] = _
        rw [hmax, ← domMax_append_single]
      rw [hpm, ← hsnocB, evictOldAux_domMax _ _ hpw]
      congr 1
      rw [hht, List.cons_append, idxWindow_cons_shift]
      apply evictOldAux_cons_window
      · show ((p.length - W : Nat) : Int) < (s.index : Int) - W + 1
        omega
      · intro q hq
        have hge := idxWindow_index_ge _ _ q hq
        omega
    have hminB : evictOldAux ((s.index : Int) - W + 1) (pushMin x s.index s.dqMin)
        = domMin (idxWindow (tl ++ [x]) (p.length - W + 1)) := by
      have hpm : pushMin x s.index s.dqMin
          = domMin (idxWindow (p.drop (p.length - W)) (p.length - W) ++ [(x, s.index)]) := by
        show popBackWhileGe x s.dqMin ++ [(x, s.index)] = _
        rw [hmin, ← domMin_append_single]
      rw [hpm, ← hsnocB, evictOldAux_domMin _ _ hpw]
      congr 1
      rw [hht, List.cons_append, idxWindow_cons_shift]
      apply evictOldAux_cons_window
      · show ((p.length - W : Nat) : Int) < (s.index : Int) - W + 1
        omega
      · intro q hq
        have hge := idxWindow_index_ge _ _ q hq
        omega
    have h1 : s.index + 1 = (p ++ [x]).length := by rw [hlen1]; omega
    have h2 : s.count = min (p ++ [x]).length W := by
      rw [hlen1, Nat.min_eq_right (by omega : W ≤ p.length + 1)]
      omega
    have h3 : (s.buf.set s.start x).length = W := by
      rw [List.length_set]; exact hbuflen
    have h4 : (s.start + 1) % W = ((p ++ [x]).length - s.count) % W := by
      rw [harg2, hstart, Nat.mod_add_mod]
    have h6 : s.sum + x - s.buf.getD s.start 0
        = ((p ++ [x]).drop ((p ++ [x]).length - s.count)).sum := by
      rw [harg2, hw']
      exact hsumB
    have h7 : evictOldAux ((s.index : Int) - W + 1) (pushMax x s.index s.dqMax)
        = domMax (idxWindow ((p ++ [x]).drop ((p ++ [x]).length - s.count))
            ((p ++ [x]).length - s.count)) := by
      rw [harg2, hw']
      exact hmaxB
    have h8 : evictOldAux ((s.index : Int) - W + 1) (pushMin x s.index s.dqMin)
        = domMin (idxWindow ((p ++ [x]).drop ((p ++ [x]).length - s.count))
            ((p ++ [x]).length - s.count)) := by
      rw [harg2, hw']
      exact hminB
    have hfst : (winStep W op s x).1
        = ⟨s.buf.set s.start x, (s.start + 1) % W, s.count,
            s.sum + x - s.buf.getD s.start 0,
            evictOldAux ((s.index : Int) - W + 1) (pushMax x s.index s.dqMax),
            evictOldAux ((s.index : Int) - W + 1) (pushMin x s.index s.dqMin),
            s.index + 1⟩ := by
      unfold winStep
      simp only [if_neg hcB, if_pos hcW]
    have hsnd : (winStep W op s x).2
        = some (winEmit W op (s.sum + x - s.buf.getD s.start 0)
            (evictOldAux ((s.index : Int) - W + 1) (pushMax x s.index s.dqMax))
            (evictOldAux ((s.index : Int) - W + 1) (pushMin x s.index s.dqMin))) := by
      unfold winStep
      simp only [if_neg hcB, if_pos hcW]
    refine ⟨?_, ?_⟩
    · rw [hfst]
      exact ⟨h1, h2, h3, h4, hbufB, h6, h7, h8⟩
    · rw [hsnd, if_pos (by omega : W ≤ p.length + 1)]
      have hw2 : (p ++ [x]).drop (p.length + 1 - W) = tl ++ [x] := by
        have he : p.length + 1 - W = p.length - W + 1 := by omega
        rw [he]
        exact hw'
      rw [hw2]
      cases op
      · show some (s.sum + x - s.buf.getD s.start 0)
            = some (aggSpec W AggOp.sum (tl ++ [x]))
        rw [hsumB]
        rfl
      · show some ((s.sum + x - s.buf.getD s.start 0) / (W : ℚ))
            = some (aggSpec W AggOp.mean (tl ++ [x]))
        rw [hsumB]
        rfl
      · show some ((evictOldAux ((s.index : Int) - W + 1)
            (pushMin x s.index s.dqMin)).headD (0, 0)).1
            = some (aggSpec W AggOp.min (tl ++ [x]))
        rw [hminB, domMin_head_val (tl ++ [x]) (p.length - W + 1) (by simp)]
        rfl
      · show some ((evictOldAux ((s.index : Int) - W + 1)
            (pushMax x s.index s.dqMax)).headD (0, 0)).1
            = some (aggSpec W AggOp.max (tl ++ [x]))
        rw [hmaxB, domMax_head_val (tl ++ [x]) (p.length - W + 1) (by simp)]
        rfl

theorem winSpecF_shift (W : Nat) (op : AggOp) (p : List ℚ) (y : ℚ) (ys : List ℚ) (k : Nat) :
    winSpecF W op (p ++ [y]) ys k = winSpecF W op p (y :: ys) (k + 1) := by
  unfold winSpecF
  have hlen : (p ++ [y]).length = p.length + 1 := by
    rw [List.length_append, List.length_singleton]
  have harr : (p ++ [y]) ++ ys = p ++ y :: ys := by
    rw [List.append_assoc, List.singleton_append]
  rw [hlen, harr]
  have h2 : p.length + 1 + k + 1 = p.length + (k + 1) + 1 := by omega
  rw [h2]

theorem winSpecF_zero (W : Nat) (op : AggOp) (p : List ℚ) (y : ℚ) (ys : List ℚ) :
    winSpecF W op p (y :: ys) 0
      = (if W ≤ p.length + 1
          then some (aggSpec W op ((p ++ [y]).drop (p.length + 1 - W))) else none) := by
  unfold winSpecF
  have h0 : p.length + 0 + 1 = p.length + 1 := by omega
  rw [h0]
  by_cases hWp : W ≤ p.length + 1
  · rw [if_pos hWp, if_pos hWp]
    have hwin : windowAt W (p ++ y :: ys) (p.length + 1 - W)
        = (p ++ [y]).drop (p.length + 1 - W) := by
      unfold windowAt
      have harr : p ++ y :: ys = (p ++ [y]) ++ ys := by
        rw [List.append_assoc, List.singleton_append]
      have hAlen : ((p ++ [y]).drop (p.length + 1 - W)).length = W := by
        rw [List.length_drop, List.length_append, List.length_singleton]
        omega
      rw [harr, List.drop_append_of_le_length
        (by rw [List.length_append, List.length_singleton]; omega :
          p.length + 1 - W ≤ (p ++ [y]).length)]
      exact List.take_left' hAlen
    rw [hwin]
  · rw [if_neg hWp, if_neg hWp]

theorem filterMap_range_shift_none (f : Nat → Option ℚ) (n : Nat) (h0 : f 0 = none) :
    (List.range (n + 1)).filterMap f = (List.range n).filterMap (fun k => f (k + 1)) := by
  rw [List.range_succ_eq_map n, List.filterMap_cons_none h0, List.filterMap_map]
  rfl

theorem filterMap_range_shift_some (f : Nat → Option ℚ) (n : Nat) (b : ℚ)
    (h0 : f 0 = some b) :
    (List.range (n + 1)).filterMap f
      = b :: (List.range n).filterMap (fun k => f (k + 1)) := by
  rw [List.range_succ_eq_map n, List.filterMap_cons_some h0, List.filterMap_map]
  rfl

/-- The generator's output after consuming prefix `p`, on the remaining input
`ys`, is exactly the per-position expected emission. -/
theorem windowedAggregateRun_spec (W : Nat) (hW : 0 < W) (op : AggOp) :
    ∀ (ys p : List ℚ) (s : WinState), WinInv W p s →
      windowedAggregateRun W op s ys
        = (List.range ys.length).filterMap (winSpecF W op p ys)
  | [], _, s, _ => by simp [windowedAggregateRun]
  | y :: ys, p, s, hinv => by
    obtain ⟨hinv2, hem⟩ := winStep_inv hW op hinv y
    rcases hstep : winStep W op s y with ⟨s2, r⟩
    simp only [hstep] at hinv2 hem
    have hR : windowedAggregateRun W op s (y :: ys)
        = (match winStep W op s y with
            | (s2, none) => windowedAggregateRun W op s2 ys
            | (s2, some rv) => rv :: windowedAggregateRun W op s2 ys) := by
      simp only [windowedAggregateRun]
    cases r with
    | none =>
      rw [hR, hstep]
      show windowedAggregateRun W op s2 ys
          = (List.range (y :: ys).length).filterMap (winSpecF W op p (y :: ys))
      have hf : ¬ W ≤ p.length + 1 := by
        by_contra hWp
        rw [if_pos hWp] at hem
        simp at hem
      rw [windowedAggregateRun_spec W hW op ys (p ++ [y]) s2 hinv2]
      rw [List.length_cons]
      rw [filterMap_range_shift_none _ _ (by rw [winSpecF_zero, if_neg hf])]
      exact List.filterMap_congr (fun k _ => winSpecF_shift W op p y ys k)
    | some rv =>
      rw [hR, hstep]
      show rv :: windowedAggregateRun W op s2 ys
          = (List.range (y :: ys).length).filterMap (winSpecF W op p (y :: ys))
      have hWp : W ≤ p.length + 1 := by
        by_contra hWp
        rw [if_neg hWp] at hem
        simp at hem
      rw [if_pos hWp] at hem
      have hrv : rv = aggSpec W op ((p ++ [y]).drop (p.length + 1 - W)) := by
        simpa using hem
      rw [windowedAggregateRun_spec W hW op ys (p ++ [y]) s2 hinv2]
      rw [List.length_cons]
      rw [filterMap_range_shift_some _ _ rv (by rw [winSpecF_zero, if_pos hWp, hrv])]
      congr 1
      exact List.filterMap_congr (fun k _ => winSpecF_shift W op p y ys k)

theorem filterMap_range_window (Wp : Nat) (hWp : 0 < Wp) (g : Nat → ℚ) :
    ∀ n : Nat, (List.range n).filterMap
        (fun k => if Wp ≤ k + 1 then some (g (k + 1 - Wp)) else none)
      = (List.range (n + 1 - Wp)).map g
  | 0 => by
    have h0 : 0 + 1 - Wp = 0 := by omega
    rw [h0]
    rfl
  | n + 1 => by
    rw [List.range_succ n, List.filterMap_append, filterMap_range_window Wp hWp g n]
    by_cases hc : Wp ≤ n + 1
    · have h1 : n + 1 + 1 - Wp = (n + 1 - Wp) + 1 := by omega
      rw [h1, List.range_succ, List.map_append]
      congr 1
      simp [hc]
    · have h1 : n + 1 + 1 - Wp = n + 1 - Wp := by omega
      rw [h1]
      simp [hc]

/-- C5: for every finite numeric list `xs`, window size `W + 1 > 0` and
`op ∈ {sum, mean, min, max}`, `windowedAggregate` emits nothing until `W + 1`
items have arrived and then emits on every subsequent item: the output is
exactly the list of `op`-aggregates of the sliding windows
`xs[i .. i + (W+1))` for `i = 0 .. |xs| − (W+1)` (over exact rational
arithmetic, with `min`/`max` computed through the monotonic deques equal to
the true window minimum/maximum), and in particular the output length is
`max(0, |xs| − (W+1) + 1)`. -/
theorem C5_windowedAggregate (W : Nat) (op : AggOp) (xs : List ℚ) :
    windowedAggregateModel (W + 1) op xs
        = (List.range (xs.length + 1 - (W + 1))).map
            (fun i => aggSpec (W + 1) op (windowAt (W + 1) xs i))
      ∧ (windowedAggregateModel (W + 1) op xs).length = xs.length + 1 - (W + 1) := by
  have hW : 0 < W + 1 := Nat.succ_pos W
  have h1 : windowedAggregateModel (W + 1) op xs
      = (List.range xs.length).filterMap (winSpecF (W + 1) op [] xs) := by
    unfold windowedAggregateModel
    exact windowedAggregateRun_spec (W + 1) hW op xs [] (winInit (W + 1)) (winInit_inv (W + 1))
  have h2 : ∀ k, winSpecF (W + 1) op [] xs k
      = (if W + 1 ≤ k + 1
          then some ((fun i => aggSpec (W + 1) op (windowAt (W + 1) xs i)) (k + 1 - (W + 1)))
          else none) := by
    intro k
    unfold winSpecF
    simp only [List.length_nil, List.nil_append, Nat.zero_add]
  have h3 : (List.range xs.length).filterMap (winSpecF (W + 1) op [] xs)
      = (List.range (xs.length + 1 - (W + 1))).map
          (fun i => aggSpec (W + 1) op (windowAt (W + 1) xs i)) :=
    (List.filterMap_congr (fun k _ => h2 k)).trans
      (filterMap_range_window (W + 1) hW
        (fun i => aggSpec (W + 1) op (windowAt (W + 1) xs i)) xs.length)
  refine ⟨h1.trans h3, ?_⟩
  rw [h1.trans h3, List.length_map, List.length_range]

/-- Concrete run of the windowed aggregator: sliding maxima of width 2. -/
theorem windowedAggregateModel_max_example :
    windowedAggregateModel 2 AggOp.max [1, 5, 3, 2] = [5, 5, 3] := by decide

end Nagare
